import Mathlib

/-!
Verification of the transit routing engine: a shallow embedding of the
graph builder, the multi-source multi-sink shortest-path search, and the
trip assembler of the transport server, together with proofs of the
specified properties.

Numeric modelling: the Python engine computes with IEEE floats whose
inputs (coordinates, cumulative distances, prices, weights) are decimal
data; we embed these values as rationals, and the transcendental
great-circle computation as a real-valued function.  Python dicts are
embedded as association lists where insertion prepends (so lookup sees
the most recent binding, matching dict assignment), and the unbounded
while loops of the search are embedded with an explicit fuel parameter.
-/

/-! ## Association-list dictionaries (Python dict) -/

/-- Lookup in an association list; the first (most recently inserted)
binding wins, modelling Python dict access via a prepend-on-assign list. -/
def lookupD {α : Type} : List (ℕ × α) → ℕ → Option α
  | [], _ => none
  | (k, v) :: rest, x => if x = k then some v else lookupD rest x

/-- Dict assignment modelled by prepending, which shadows older bindings. -/
def insertD {α : Type} (d : List (ℕ × α)) (k : ℕ) (v : α) : List (ℕ × α) :=
  (k, v) :: d

/-- The keys of an association list are pairwise distinct, which is the
invariant an actual Python dict maintains for its items view. -/
def NodupKeys {α : Type} (l : List (ℕ × α)) : Prop :=
  (l.map Prod.fst).Nodup

/-! ## Data model (db.models) -/

/-- A physical stop: identity, display name, coordinates (db.models.Stop). -/
structure Stop where
  id : ℕ
  name : String
  lat : ℚ
  lng : ℚ
deriving DecidableEq, Repr

/-- A bus route: display name, vehicle class, flat ticket price
(db.models.Route; nullable columns become Option). -/
structure Route where
  name : String
  bus_type : Option String
  ticket_price : Option ℚ
deriving DecidableEq, Repr

/-- One operating direction of a route, with its owning route resolved
(db.models.Direction as seen through the joinedload in build_graph). -/
structure Direction where
  direction : String
  sub_name : Option String
  route : Route
deriving DecidableEq, Repr

/-- A stop-assignment: links a direction to a stop at an ordinal position
and carries the cumulative distance-from-start, which may be unknown
(db.models.RouteStop with its direction and stop relations resolved). -/
structure RouteStop where
  id : ℕ
  direction_id : ℕ
  stop_id : ℕ
  order : ℤ
  distance_from_start : Option ℚ
  direction : Direction
  stop : Stop
deriving DecidableEq, Repr

/-! ## Graph builder (services.routing_cal.build_graph) -/

/-- The graph maps a node id (RouteStop id) to its adjacency list of
(neighbor id, weight) pairs; a defaultdict(list), so absent keys give []. -/
def Graph : Type := ℕ → List (ℕ × ℚ)

/-- An empty defaultdict(list), the initial graph value. -/
def graph0 : Graph := fun _ => []

/-- Append one directed edge to the adjacency list of u, exactly as
graph[u].append((v, w)) does. -/
def addEdge (g : Graph) (u v : ℕ) (w : ℚ) : Graph :=
  fun x => if x = u then g x ++ [(v, w)] else g x

/-- Stop-assignments of one direction: rs_by_dir grouping, which keeps
the original list order within each group. -/
def dirGroup (route_stops : List RouteStop) (d : ℕ) : List RouteStop :=
  route_stops.filter (fun rs => rs.direction_id = d)

/-- Direction ids in order of first appearance, matching iteration over
the insertion-ordered keys of the rs_by_dir defaultdict. -/
def dirIds (route_stops : List RouteStop) : List ℕ :=
  (route_stops.map (fun rs => rs.direction_id)).dedup

/-- One direction's stop-assignments sorted by ordinal position
(stops.sort(key=lambda x: x.order); mergeSort is stable like list.sort). -/
def sortedDir (route_stops : List RouteStop) (d : ℕ) : List RouteStop :=
  (dirGroup route_stops d).mergeSort (fun a b => decide (a.order ≤ b.order))

/-- Ride-edge pass over the consecutive pairs of one sorted direction:
an edge a.id -> b.id weighted by the difference of the cumulative
distances is added only when both distances are known. -/
def rideFold : List RouteStop → Graph → Graph
  | a :: b :: rest, g =>
    rideFold (b :: rest)
      (match a.distance_from_start, b.distance_from_start with
       | some da, some db => addEdge g a.id b.id (db - da)
       | _, _ => g)
  | _, g => g

/-- Pass 1 of build_graph: ride edges within each direction. -/
def ridePass (route_stops : List RouteStop) (g : Graph) : Graph :=
  (dirIds route_stops).foldl (fun g d => rideFold (sortedDir route_stops d) g) g

/-- Stop-assignments attached to one physical stop: rs_by_stop grouping. -/
def stopGroup (route_stops : List RouteStop) (sid : ℕ) : List RouteStop :=
  route_stops.filter (fun rs => rs.stop_id = sid)

/-- Transfer-edge inner loops: for every pair drawn from the two groups
whose direction ids differ, add a directed edge with the given weight. -/
def addTransfers (as bs : List RouteStop) (w : ℚ) (g : Graph) : Graph :=
  as.foldl
    (fun g a =>
      bs.foldl
        (fun g b =>
          if a.direction_id ≠ b.direction_id then addEdge g a.id b.id w else g)
        g)
    g

/-- Pass 2 of build_graph: walking transfers between stop-assignments of
stop pairs reported within 300 m, weight dist_km * WALK_WEIGHT +
TRANSFER_PENALTY with WALK_WEIGHT = 3.0 and TRANSFER_PENALTY = 0.6. -/
def walkPass (route_stops : List RouteStop) (nearby_pairs : List (ℕ × ℕ × ℚ))
    (g : Graph) : Graph :=
  nearby_pairs.foldl
    (fun g p =>
      addTransfers (stopGroup route_stops p.1) (stopGroup route_stops p.2.1)
        (p.2.2 * 3 + 0.6) g)
    g

/-- Stop ids in order of first appearance (rs_by_stop key iteration). -/
def stopIds (route_stops : List RouteStop) : List ℕ :=
  (route_stops.map (fun rs => rs.stop_id)).dedup

/-- Pass 3 of build_graph: same-stop transfers with weight
TRANSFER_PENALTY = 0.6 between differing directions at one stop. -/
def sameStopPass (route_stops : List RouteStop) (g : Graph) : Graph :=
  (stopIds route_stops).foldl
    (fun g sid => addTransfers (stopGroup route_stops sid) (stopGroup route_stops sid) 0.6 g)
    g

/-- The graph built from one snapshot: the three edge passes of
build_graph run in source order over the empty defaultdict. -/
def buildGraphFromSnapshot (route_stops : List RouteStop)
    (nearby_pairs : List (ℕ × ℕ × ℚ)) : Graph :=
  sameStopPass route_stops (walkPass route_stops nearby_pairs (ridePass route_stops graph0))

/-- Modelled from the spec: the pairwise spatial lookup backing the SQL
query in build_graph (SELECT pairs of distinct stops with ST_DWithin
within maxM meters, reporting ST_Distance / 1000 km), with the PostGIS
geography distance supplied as an abstract function in meters. -/
def pairsWithin (stops : List Stop) (stDist : Stop → Stop → ℚ) (maxM : ℚ) :
    List (ℕ × ℕ × ℚ) :=
  stops.flatMap
    (fun a =>
      (stops.filter (fun b => decide (a.id ≠ b.id ∧ stDist a b ≤ maxM))).map
        (fun b => (a.id, b.id, stDist a b / 1000)))

/-- The node index CACHED_RS_MAP: a dict from RouteStop id to the record. -/
def rsMapOf (route_stops : List RouteStop) : List (ℕ × RouteStop) :=
  route_stops.map (fun rs => (rs.id, rs))

/-- The triple build_graph caches and returns: graph, node list, node index. -/
structure TransitData where
  graph : Graph
  route_stops : List RouteStop
  rs_map : List (ℕ × RouteStop)

/-- The read-only snapshot build_graph reads from the database: the
route-stop query result and the pairwise within-300m spatial query result. -/
structure DBSnapshot where
  route_stops : List RouteStop
  nearby_pairs : List (ℕ × ℕ × ℚ)

/-- A full (cache-ignoring) build from the snapshot read at this call. -/
def freshTransitData (db : DBSnapshot) : TransitData :=
  { graph := buildGraphFromSnapshot db.route_stops db.nearby_pairs
    route_stops := db.route_stops
    rs_map := rsMapOf db.route_stops }

/-- The build_graph entry point with its module-level cache made explicit:
the global CACHED_GRAPH / CACHED_ROUTE_STOPS / CACHED_RS_MAP state is
passed in and returned; a populated cache is returned as-is without
consulting the snapshot. -/
def build_graph (cache : Option TransitData) (db : DBSnapshot) :
    TransitData × Option TransitData :=
  match cache with
  | some td => (td, some td)
  | none =>
    let td := freshTransitData db
    (td, some td)

/-! ## Path search (services.routing_cal.dijkstra) -/

/-- Mutable state of the search loop: tentative distances, predecessor
map, priority queue, and the best destination tracking.  best_dist is an
Option with none standing for the initial float("inf"). -/
structure DState where
  dist : List (ℕ × ℚ)
  prev : List (ℕ × ℕ)
  pq : List (ℚ × ℕ)
  best_end : Option ℕ
  best_dist : Option ℚ
deriving Repr

/-- Lexicographic order on heap entries (cost, node id), the order Python
tuples compare under in heapq. -/
def lexLe (a b : ℚ × ℕ) : Bool :=
  decide (a.1 < b.1) || (decide (a.1 = b.1) && decide (a.2 ≤ b.2))

/-- The least entry of the heap contents, which heappop removes; ties on
cost break by node id exactly as tuple comparison does. -/
def pqMin : List (ℚ × ℕ) → Option (ℚ × ℕ)
  | [] => none
  | e :: rest =>
    match pqMin rest with
    | none => some e
    | some m => if lexLe e m then some e else some m

/-- Comparison x < dist.get(key, float("inf")): an absent entry is +inf. -/
def ltInf (x : ℚ) : Option ℚ → Bool
  | none => true
  | some d => decide (x < d)

/-- The relaxation loop over the adjacency list of the popped node cur at
popped cost c: each strictly improving edge updates dist and prev and
pushes the new entry. -/
def relaxAll (cur : ℕ) (c : ℚ) :
    List (ℕ × ℚ) → List (ℕ × ℚ) → List (ℕ × ℕ) → List (ℚ × ℕ) →
    List (ℕ × ℚ) × List (ℕ × ℕ) × List (ℚ × ℕ)
  | [], dist, prev, pq => (dist, prev, pq)
  | (nxt, w) :: es, dist, prev, pq =>
    let nd := c + w
    if ltInf nd (lookupD dist nxt) then
      relaxAll cur c es (insertD dist nxt nd) (insertD prev nxt cur) ((nd, nxt) :: pq)
    else
      relaxAll cur c es dist prev pq

/-- One popped entry is stale when its key exceeds the recorded distance
(cur_dist > dist.get(cur, float("inf")), false for an absent entry). -/
def staleEntry (dist : List (ℕ × ℚ)) (cur_dist : ℚ) (cur : ℕ) : Bool :=
  match lookupD dist cur with
  | some d => decide (d < cur_dist)
  | none => false

/-- The while loop of dijkstra, with fuel standing in for the unbounded
iteration; none is returned only when fuel runs out before the queue
empties.  Each iteration pops the least entry, skips it when stale,
otherwise records a destination total when the popped node's stop is a
destination stop and then relaxes its outgoing edges. -/
def dijkstraLoop (graph : Graph) (end_stop_costs : List (ℕ × ℚ))
    (rs_map : ℕ → RouteStop) : ℕ → DState → Option DState
  | 0, st =>
    match pqMin st.pq with
    | none => some st
    | some _ => none
  | fuel + 1, st =>
    match pqMin st.pq with
    | none => some st
    | some (cur_dist, cur) =>
      let rest := st.pq.erase (cur_dist, cur)
      if staleEntry st.dist cur_dist cur then
        dijkstraLoop graph end_stop_costs rs_map fuel
          { st with pq := rest }
      else
        let bp : Option ℚ × Option ℕ :=
          match lookupD end_stop_costs (rs_map cur).stop_id with
          | some ce =>
            let total := cur_dist + ce
            if ltInf total st.best_dist then (some total, some cur)
            else (st.best_dist, st.best_end)
          | none => (st.best_dist, st.best_end)
        let r := relaxAll cur cur_dist (graph cur) st.dist st.prev rest
        dijkstraLoop graph end_stop_costs rs_map fuel
          ⟨r.1, r.2.1, r.2.2, bp.2, bp.1⟩

/-- Initial state: dist seeded from the start-cost dict and every start
pushed at its initial cost; best_end None and best_dist +inf. -/
def initDState (start_rs_costs : List (ℕ × ℚ)) : DState :=
  start_rs_costs.foldl
    (fun st p => { st with dist := insertD st.dist p.1 p.2, pq := (p.2, p.1) :: st.pq })
    ⟨[], [], [], none, none⟩

/-- The dijkstra entry point: runs the loop from the seeded state and
returns (best_end, prev) as the source does; the node index is passed as
a total function since every id the search touches is a key of rs_map. -/
def dijkstra (graph : Graph) (start_rs_costs end_stop_costs : List (ℕ × ℚ))
    (rs_map : ℕ → RouteStop) (fuel : ℕ) : Option (Option ℕ × List (ℕ × ℕ)) :=
  (dijkstraLoop graph end_stop_costs rs_map fuel (initDState start_rs_costs)).map
    (fun st => (st.best_end, st.prev))

/-- The walk back through prev (services.routing_cal.rebuild_path), with
fuel bounding the while loop. -/
def rebuildAux (prev : List (ℕ × ℕ)) : ℕ → ℕ → List ℕ → List ℕ
  | _, 0, path => path
  | e, fuel + 1, path =>
    match lookupD prev e with
    | none => path
    | some p => rebuildAux prev p fuel (path ++ [p])

/-- Reconstruct the node path from the destination back through prev and
reverse it, as rebuild_path does. -/
def rebuild_path (end_id : ℕ) (prev : List (ℕ × ℕ)) (fuel : ℕ) : List ℕ :=
  (rebuildAux prev end_id fuel [end_id]).reverse

/-! ## Distance utility (services.routing_cal.haversine) -/

/-- Degree-to-radian conversion performed inside haversine. -/
noncomputable def radians (x : ℚ) : ℝ := (x : ℝ) * Real.pi / 180

/-- Great-circle distance in km with mean Earth radius 6371, exactly the
haversine formula of the source; coordinates arrive as rational data and
the value is a real number. -/
noncomputable def haversine (lat1 lng1 lat2 lng2 : ℚ) : ℝ :=
  let lat1r := radians lat1
  let lng1r := radians lng1
  let lat2r := radians lat2
  let lng2r := radians lng2
  let dlat := lat2r - lat1r
  let dlng := lng2r - lng1r
  let a := Real.sin (dlat / 2) ^ 2 +
    Real.cos lat1r * Real.cos lat2r * Real.sin (dlng / 2) ^ 2
  2 * 6371 * Real.arcsin (Real.sqrt a)

/-- Python round(x, n) modelled with the mathematical half-up round; the
engine never feeds it an exact midpoint in the properties below, where
banker's rounding and half-up rounding agree. -/
noncomputable def pyRound (x : ℝ) (n : ℕ) : ℝ :=
  (round (x * 10 ^ n) : ℤ) / 10 ^ n

/-! ## Trip assembler (routes.bus_route.find_route) -/

/-- Outcomes that abort find_route: the documented HTTP signals, the
uncaught TypeError a None arithmetic raises, the uncaught IndexError an
empty-sequence index raises, and the fuel-exhaustion artifact of
embedding the unbounded loops. -/
inductive RouteError where
  | http : ℕ → String → RouteError
  | typeError : RouteError
  | indexError : RouteError
  | fuelExhausted : RouteError
deriving DecidableEq, Repr

/-- Grouping loop of find_route: consecutive path nodes sharing a
direction id extend the current segment, a direction change flushes it;
the trailing current segment is appended after the loop. -/
def segLoop (rs_map : ℕ → RouteStop) :
    List ℕ → List (List RouteStop) → List RouteStop → List (List RouteStop)
  | [], segments, current => segments ++ [current]
  | rs_id :: rest, segments, current =>
    let rs := rs_map rs_id
    match current.getLast? with
    | none => segLoop rs_map rest segments (current ++ [rs])
    | some last =>
      if last.direction_id = rs.direction_id then
        segLoop rs_map rest segments (current ++ [rs])
      else
        segLoop rs_map rest (segments ++ [current]) [rs]

/-- The segments of a reconstructed path, as find_route groups them. -/
def segmentsOf (rs_map : ℕ → RouteStop) (path_ids : List ℕ) : List (List RouteStop) :=
  segLoop rs_map path_ids [] []

/-- Per-segment metrics of find_route. -/
structure SegStats where
  dist : ℚ
  duration : ℚ
  cost : ℚ
deriving DecidableEq, Repr

/-- Basic segment stats: distance is the absolute difference of the first
and last cumulative distances (a TypeError when either is None, since the
source subtracts them unguarded), duration is dist * TRANSIT_SPEED_MIN_KM
+ stop count * STOP_PENALTY_MIN (2.0 and 0.3), and cost is the owning
route's ticket price with None defaulting to 0 via the or-expression. -/
def segStats (seg : List RouteStop) : Except RouteError SegStats :=
  match seg.head?, seg.getLast? with
  | some first, some last =>
    match last.distance_from_start, first.distance_from_start with
    | some dl, some df =>
      let seg_dist := |dl - df|
      Except.ok
        { dist := seg_dist
          duration := seg_dist * 2 + (seg.length : ℚ) * 0.3
          cost := (first.direction.route.ticket_price).getD 0 }
    | _, _ => Except.error RouteError.typeError
  | _, _ => Except.error RouteError.indexError

/-- Transfer descriptor between consecutive segments, with the rounded
presentation fields the response carries. -/
structure Transfer where
  walk_dist_km : ℝ
  walk_duration_mins : ℝ
  is_same_stop : Bool

/-- Accumulated trip figures of the response loop: total duration and
distance (reals, since transfer walks go through haversine), total cost,
and the per-segment transfer descriptors (none for the first segment). -/
structure TripTotals where
  duration : ℝ
  dist : ℝ
  cost : ℚ
  transfers : List (Option Transfer)

/-- The response loop of find_route over the segments: add each segment's
stats to the totals, and from the second segment on compute the walking
transfer from the previous segment's last stop (duration rounded to one
decimal at WALK_SPEED_MIN_KM = 10.0), add it to the totals, and record
its descriptor. -/
noncomputable def assembleLoop :
    List (List RouteStop) → Option Stop → ℝ → ℝ → ℚ → List (Option Transfer) →
    Except RouteError TripTotals
  | [], _, dur, dist, cost, trs => Except.ok ⟨dur, dist, cost, trs⟩
  | seg :: rest, prevLast, dur, dist, cost, trs =>
    match segStats seg with
    | Except.error e => Except.error e
    | Except.ok st =>
      let dur1 := dur + (st.duration : ℝ)
      let dist1 := dist + (st.dist : ℝ)
      let cost1 := cost + st.cost
      match prevLast with
      | none =>
        match seg.getLast? with
        | some l => assembleLoop rest (some l.stop) dur1 dist1 cost1 (trs ++ [none])
        | none => Except.error RouteError.indexError
      | some prev_stop =>
        match seg.head?, seg.getLast? with
        | some h, some l =>
          let curr_stop := h.stop
          let t_dist := haversine prev_stop.lat prev_stop.lng curr_stop.lat curr_stop.lng
          let t_dur := pyRound (t_dist * 10) 1
          let tr : Transfer :=
            ⟨pyRound t_dist 3, t_dur, decide (prev_stop.id = curr_stop.id)⟩
          assembleLoop rest (some l.stop) (dur1 + t_dur) (dist1 + t_dist) cost1
            (trs ++ [some tr])
        | _, _ => Except.error RouteError.indexError

/-- The whole final-response calculation of find_route applied to the
grouped segments, starting from zero totals. -/
noncomputable def assembleSegments (segs : List (List RouteStop)) :
    Except RouteError TripTotals :=
  assembleLoop segs none 0 0 0 []

/-! ## Endpoint wiring (routes.bus_route.find_route) -/

/-- Request coordinate pair (schemas.bus_schema.Location). -/
structure Location where
  lat : ℚ
  lng : ℚ
deriving DecidableEq, Repr

/-- Request payload (schemas.bus_schema.RouteRequest). -/
structure RouteRequest where
  from_location : Location
  to_location : Location
deriving DecidableEq, Repr

/-- Placeholder record produced by the totalized node-index lookup at a
key the engine never queries; the source's dict access would raise
KeyError there and no reachable code path performs such an access. -/
def rsDefault : RouteStop :=
  ⟨0, 0, 0, 0, none, ⟨"", none, ⟨"", none, none⟩⟩, ⟨0, "", 0, 0⟩⟩

/-- The node-index dict viewed as a total function on node ids. -/
def rsFun (rs_map : List (ℕ × RouteStop)) : ℕ → RouteStop :=
  fun i => (lookupD rs_map i).getD rsDefault

/-- Mapping of start candidates to route-stop nodes: for every candidate
stop and every route stop attached to it, record walk distance *
WALK_WEIGHT (1.5) keeping the minimum per node id. -/
def buildStartCosts (cands : List (Stop × ℚ)) (route_stops : List RouteStop) :
    List (ℕ × ℚ) :=
  cands.foldl
    (fun d p =>
      route_stops.foldl
        (fun d rs =>
          if rs.stop_id = p.1.id then
            insertD d rs.id
              (match lookupD d rs.id with
               | none => p.2 * 1.5
               | some v => min v (p.2 * 1.5))
          else d)
        d)
    []

/-- Summary block of the response, with the rounding the source applies;
all distances km, durations minutes. -/
structure Summary where
  total_duration_mins : ℝ
  total_cost : ℚ
  total_walking_distance_km : ℝ
  walking_duration_mins : ℝ
  from_stop : Stop
  to_stop : Stop
  walking_distance_to_start_km : ℝ
  walking_distance_to_end_km : ℝ

/-- The response: summary plus the per-segment transfer descriptors; the
remaining per-segment presentation fields echo names and rounded copies
of the stats already computed by the assembler. -/
structure FindResult where
  summary : Summary
  transfers : List (Option Transfer)

/-- The find_route endpoint: the 200 km sanity check on the great-circle
distance, candidate lookup (nearest 3 within 0.7 km each side, via the
external spatial index passed as the nearby function), candidate cost
maps, the dijkstra search, path reconstruction, segmentation, assembly
and the summary computation, in source order with the same signals. -/
noncomputable def find_route (nearby : ℚ → ℚ → ℚ → List (Stop × ℚ))
    (transit : TransitData) (fuel : ℕ) (payload : RouteRequest) :
    Except RouteError FindResult :=
  let from_lat := payload.from_location.lat
  let from_lng := payload.from_location.lng
  let to_lat := payload.to_location.lat
  let to_lng := payload.to_location.lng
  let rough_dist := haversine from_lat from_lng to_lat to_lng
  if 200 < rough_dist then
    Except.error (RouteError.http 400 "Distance too far for local transit search.")
  else
    let start_candidates := (nearby from_lat from_lng 0.7).take 3
    let end_candidates := (nearby to_lat to_lng 0.7).take 3
    if start_candidates.isEmpty || end_candidates.isEmpty then
      Except.error (RouteError.http 404 "Could not find stops near your location.")
    else
      let rs_map := rsFun transit.rs_map
      let start_rs_costs := buildStartCosts start_candidates transit.route_stops
      if start_rs_costs.isEmpty then
        Except.error (RouteError.http 404 "No bus routes available from these stops.")
      else
        let end_stop_costs := end_candidates.map (fun p => (p.1.id, p.2 * 1.5))
        match dijkstra transit.graph start_rs_costs end_stop_costs rs_map fuel with
        | none => Except.error RouteError.fuelExhausted
        | some (none, _) =>
          Except.error (RouteError.http 404 "No path found between these locations.")
        | some (some end_rs_id, prev) =>
          let path_ids := rebuild_path end_rs_id prev fuel
          let segments := segmentsOf rs_map path_ids
          match assembleSegments segments with
          | Except.error e => Except.error e
          | Except.ok totals =>
            match path_ids.head?, path_ids.getLast? with
            | some firstId, some lastId =>
              let first_rs := rs_map firstId
              let last_rs := rs_map lastId
              let walk_start_km :=
                ((start_candidates.find? (fun p => p.1.id = first_rs.stop_id)).map
                  Prod.snd).getD 0
              let walk_end_km :=
                ((end_candidates.find? (fun p => p.1.id = last_rs.stop_id)).map
                  Prod.snd).getD 0
              let initial_walk_duration : ℝ := (walk_start_km : ℝ) * 10
              let final_walk_duration : ℝ := (walk_end_km : ℝ) * 10
              let grand_total := totals.duration + initial_walk_duration + final_walk_duration
              Except.ok
                { summary :=
                  { total_duration_mins := pyRound grand_total 0
                    total_cost := totals.cost
                    total_walking_distance_km :=
                      pyRound ((walk_start_km : ℝ) + (walk_end_km : ℝ)) 2
                    walking_duration_mins :=
                      pyRound (initial_walk_duration + final_walk_duration) 0
                    from_stop := first_rs.stop
                    to_stop := last_rs.stop
                    walking_distance_to_start_km := pyRound (walk_start_km : ℝ) 3
                    walking_distance_to_end_km := pyRound (walk_end_km : ℝ) 3 }
                  transfers := totals.transfers }
            | _, _ => Except.error RouteError.indexError

/-! ## Shortest-path specification -/

/-- Walks in the graph, weighted by the sum of the traversed edge
weights; built by extending at the far end. -/
inductive PathW (g : Graph) : ℕ → ℕ → ℚ → Prop
  | refl (u : ℕ) : PathW g u u 0
  | snoc {u v x : ℕ} {c w : ℚ} : PathW g u v c → (x, w) ∈ g v → PathW g u x (c + w)

/-- A realizable trip total ending at node v: initial cost of some start
node s, plus the weight of some walk from s to v, plus the remaining
cost attached to v's stop in the destination map. -/
def TripTotalAt (g : Graph) (starts ends : List (ℕ × ℚ)) (stopOf : ℕ → ℕ)
    (v : ℕ) (t : ℚ) : Prop :=
  ∃ s cs c ce, (s, cs) ∈ starts ∧ PathW g s v c ∧
    lookupD ends (stopOf v) = some ce ∧ t = cs + c + ce

/-- A realizable trip total ending anywhere. -/
def TripTotal (g : Graph) (starts ends : List (ℕ × ℚ)) (stopOf : ℕ → ℕ)
    (t : ℚ) : Prop :=
  ∃ v, TripTotalAt g starts ends stopOf v t

/-! ## Dictionary and queue lemmas -/

theorem lookupD_mem {α : Type} : ∀ {l : List (ℕ × α)} {u : ℕ} {d : α},
    lookupD l u = some d → (u, d) ∈ l := by
  intro l
  induction l with
  | nil => intro u d h; simp [lookupD] at h
  | cons p rest ih =>
    intro u d h
    obtain ⟨k, v⟩ := p
    simp only [lookupD] at h
    by_cases hk : u = k
    · subst hk
      simp at h
      subst h
      exact List.mem_cons_self _ _
    · rw [if_neg hk] at h
      exact List.mem_cons_of_mem _ (ih h)

theorem mem_lookupD {α : Type} : ∀ {l : List (ℕ × α)} {u : ℕ} {d : α},
    NodupKeys l → (u, d) ∈ l → lookupD l u = some d := by
  intro l
  induction l with
  | nil => intro u d _ h; simp at h
  | cons p rest ih =>
    intro u d hnd h
    obtain ⟨k, v⟩ := p
    have hnd2 : (k :: rest.map Prod.fst).Nodup := by simpa [NodupKeys] using hnd
    have hk_not := (List.nodup_cons.mp hnd2).1
    have hrest : NodupKeys rest := by
      unfold NodupKeys
      exact (List.nodup_cons.mp hnd2).2
    rcases List.mem_cons.mp h with heq | hmem
    · have h1 : u = k := congrArg Prod.fst heq
      have h2 : d = v := congrArg Prod.snd heq
      subst h1; subst h2
      simp [lookupD]
    · have hne : u ≠ k := by
        rintro rfl
        exact hk_not (List.mem_map_of_mem Prod.fst hmem)
      simp only [lookupD, if_neg hne]
      exact ih hrest hmem

theorem lexLe_cost_le {a b : ℚ × ℕ} (h : lexLe a b = true) : a.1 ≤ b.1 := by
  unfold lexLe at h
  rcases Bool.or_eq_true_iff.mp h with h1 | h2
  · exact le_of_lt (of_decide_eq_true h1)
  · exact le_of_eq (of_decide_eq_true (Bool.and_eq_true_iff.mp h2).1)

theorem lexLe_not_cost_le {a b : ℚ × ℕ} (h : ¬ lexLe a b = true) : b.1 ≤ a.1 := by
  unfold lexLe at h
  rw [Bool.or_eq_true_iff, not_or] at h
  have h1 : ¬ a.1 < b.1 := fun hc => h.1 (by simpa using decide_eq_true hc)
  exact le_of_not_lt h1

theorem pqMin_cons_none {e : ℚ × ℕ} {rest : List (ℚ × ℕ)} (h : pqMin rest = none) :
    pqMin (e :: rest) = some e := by
  rw [pqMin, h]

theorem pqMin_cons_some {e m : ℚ × ℕ} {rest : List (ℚ × ℕ)} (h : pqMin rest = some m) :
    pqMin (e :: rest) = if lexLe e m then some e else some m := by
  rw [pqMin, h]

theorem pqMin_eq_none : ∀ {l : List (ℚ × ℕ)}, pqMin l = none ↔ l = [] := by
  intro l
  cases l with
  | nil => simp [pqMin]
  | cons e rest =>
    simp only [List.cons_ne_nil, iff_false]
    intro h
    cases hr : pqMin rest with
    | none => rw [pqMin_cons_none hr] at h; exact Option.noConfusion h
    | some m =>
      rw [pqMin_cons_some hr] at h
      by_cases hle : lexLe e m = true
      · rw [if_pos hle] at h; exact Option.noConfusion h
      · rw [if_neg hle] at h; exact Option.noConfusion h

theorem pqMin_mem : ∀ {l : List (ℚ × ℕ)} {m : ℚ × ℕ}, pqMin l = some m → m ∈ l := by
  intro l
  induction l with
  | nil => intro m h; simp [pqMin] at h
  | cons e rest ih =>
    intro m h
    cases hr : pqMin rest with
    | none =>
      rw [pqMin_cons_none hr] at h
      rcases Option.some.inj h with rfl
      exact List.mem_cons_self _ _
    | some m' =>
      rw [pqMin_cons_some hr] at h
      by_cases hle : lexLe e m' = true
      · rw [if_pos hle] at h
        rcases Option.some.inj h with rfl
        exact List.mem_cons_self _ _
      · rw [if_neg hle] at h
        rcases Option.some.inj h with rfl
        exact List.mem_cons_of_mem _ (ih hr)

theorem pqMin_le : ∀ {l : List (ℚ × ℕ)} {m : ℚ × ℕ}, pqMin l = some m →
    ∀ e ∈ l, m.1 ≤ e.1 := by
  intro l
  induction l with
  | nil => intro m h; simp [pqMin] at h
  | cons a rest ih =>
    intro m h e he
    cases hr : pqMin rest with
    | none =>
      rw [pqMin_cons_none hr] at h
      rcases Option.some.inj h with rfl
      have hrest : rest = [] := pqMin_eq_none.mp hr
      subst hrest
      rcases List.mem_singleton.mp he with rfl
      exact le_refl _
    | some m' =>
      rw [pqMin_cons_some hr] at h
      by_cases hle : lexLe a m' = true
      · rw [if_pos hle] at h
        rcases Option.some.inj h with rfl
        rcases List.mem_cons.mp he with rfl | hmem
        · exact le_refl _
        · exact le_trans (lexLe_cost_le hle) (ih hr e hmem)
      · rw [if_neg hle] at h
        rcases Option.some.inj h with rfl
        rcases List.mem_cons.mp he with rfl | hmem
        · exact lexLe_not_cost_le hle
        · exact ih hr e hmem

theorem ltInf_true_some {x d : ℚ} (h : ltInf x (some d) = true) : x < d :=
  of_decide_eq_true h

theorem ltInf_false {x : ℚ} {o : Option ℚ} (h : ltInf x o = false) :
    ∃ d, o = some d ∧ d ≤ x := by
  cases o with
  | none => simp [ltInf] at h
  | some d => exact ⟨d, rfl, le_of_not_lt (of_decide_eq_false h)⟩

theorem staleEntry_true {dist : List (ℕ × ℚ)} {c : ℚ} {cur : ℕ}
    (h : staleEntry dist c cur = true) : ∃ d, lookupD dist cur = some d ∧ d < c := by
  unfold staleEntry at h
  cases ho : lookupD dist cur with
  | none => rw [ho] at h; simp at h
  | some d => rw [ho] at h; exact ⟨d, rfl, of_decide_eq_true h⟩

theorem staleEntry_false_some {dist : List (ℕ × ℚ)} {c d : ℚ} {u : ℕ}
    (h : staleEntry dist c u = false) (ho : lookupD dist u = some d) : c ≤ d := by
  unfold staleEntry at h
  rw [ho] at h
  exact le_of_not_lt (of_decide_eq_false h)

/-! ## Search-loop invariants -/

theorem lookupD_insertD {α : Type} (d : List (ℕ × α)) (k : ℕ) (v : α) (x : ℕ) :
    lookupD (insertD d k v) x = if x = k then some v else lookupD d x := rfl

/-- Every recorded tentative distance is the value of an actual walk from
some start node, offset by that start's initial cost. -/
def DistSound (g : Graph) (starts dist : List (ℕ × ℚ)) : Prop :=
  ∀ u d, lookupD dist u = some d →
    ∃ s cs c, (s, cs) ∈ starts ∧ PathW g s u c ∧ d = cs + c

/-- Every queue entry's node has a recorded distance no larger than the
entry's key. -/
def PqSound (dist : List (ℕ × ℚ)) (pq : List (ℚ × ℕ)) : Prop :=
  ∀ d u, (d, u) ∈ pq → ∃ du, lookupD dist u = some du ∧ du ≤ d

/-- A node with a live queue entry at or below its recorded distance. -/
def OpenNode (dist : List (ℕ × ℚ)) (pq : List (ℚ × ℕ)) (u : ℕ) : Prop :=
  ∃ du d, lookupD dist u = some du ∧ (d, u) ∈ pq ∧ d ≤ du

/-- A node all of whose outgoing edges are relaxed with respect to the
current distance map. -/
def ClosedNode (g : Graph) (dist : List (ℕ × ℚ)) (u : ℕ) : Prop :=
  ∀ du, lookupD dist u = some du →
    ∀ p ∈ g u, ∃ dn, lookupD dist p.1 = some dn ∧ dn ≤ du + p.2

/-- Every reached destination-stop node is accounted for: either the best
total already undercuts it, or a live queue entry will process it again. -/
def BestComplete (ends : List (ℕ × ℚ)) (stopOf : ℕ → ℕ) (dist : List (ℕ × ℚ))
    (pq : List (ℚ × ℕ)) (best : Option ℚ) : Prop :=
  ∀ u du ce, lookupD dist u = some du → lookupD ends (stopOf u) = some ce →
    (∃ t, best = some t ∧ t ≤ du + ce) ∨ ∃ d, (d, u) ∈ pq ∧ d ≤ du

/-- Every start node's recorded distance is at most its initial cost. -/
def StartsLe (starts dist : List (ℕ × ℚ)) : Prop :=
  ∀ s cs, (s, cs) ∈ starts → ∃ d, lookupD dist s = some d ∧ d ≤ cs

/-- The tracked best is either still the initial (None, inf) pair or a
realizable trip total at the tracked best node. -/
def BestSound (g : Graph) (starts ends : List (ℕ × ℚ)) (stopOf : ℕ → ℕ)
    (be : Option ℕ) (bd : Option ℚ) : Prop :=
  (be = none ∧ bd = none) ∨
    ∃ v t, be = some v ∧ bd = some t ∧ TripTotalAt g starts ends stopOf v t

/-- Distances only improve (and may appear) as the search proceeds. -/
def DistMono (dist dist' : List (ℕ × ℚ)) : Prop :=
  ∀ u d, lookupD dist u = some d → ∃ d', lookupD dist' u = some d' ∧ d' ≤ d

theorem DistMono.rfl (dist : List (ℕ × ℚ)) : DistMono dist dist :=
  fun _ d h => ⟨d, h, le_refl d⟩

theorem DistMono.trans {d1 d2 d3 : List (ℕ × ℚ)}
    (h12 : DistMono d1 d2) (h23 : DistMono d2 d3) : DistMono d1 d3 := by
  intro u d h1
  obtain ⟨d', h2, hle⟩ := h12 u d h1
  obtain ⟨d'', h3, hle'⟩ := h23 u d' h2
  exact ⟨d'', h3, le_trans hle' hle⟩

/-- The complete loop invariant tying a search state to the inputs. -/
structure DInv (g : Graph) (starts ends : List (ℕ × ℚ)) (stopOf : ℕ → ℕ)
    (st : DState) : Prop where
  distSound : DistSound g starts st.dist
  pqSound : PqSound st.dist st.pq
  startsLe : StartsLe starts st.dist
  bestComplete : BestComplete ends stopOf st.dist st.pq st.best_dist
  openClosed : ∀ u du, lookupD st.dist u = some du →
    OpenNode st.dist st.pq u ∨ ClosedNode g st.dist u
  bestSound : BestSound g starts ends stopOf st.best_end st.best_dist

/-- One pass of the relaxation loop preserves all state invariants, keeps
the popped node's distance fixed, only improves distances, keeps all old
queue entries, and leaves every processed edge relaxed. -/
theorem relaxAll_spec (g : Graph) (starts ends : List (ℕ × ℚ)) (stopOf : ℕ → ℕ)
    (cur : ℕ) (c : ℚ) (best : Option ℚ)
    (hnn : ∀ u, ∀ p ∈ g u, 0 ≤ p.2) :
    ∀ (es : List (ℕ × ℚ)) (dist : List (ℕ × ℚ)) (prev : List (ℕ × ℕ))
      (pq : List (ℚ × ℕ)),
    (∀ e ∈ es, e ∈ g cur) →
    lookupD dist cur = some c →
    DistSound g starts dist →
    PqSound dist pq →
    StartsLe starts dist →
    BestComplete ends stopOf dist pq best →
    (∀ u, u ≠ cur → ∀ du, lookupD dist u = some du →
      OpenNode dist pq u ∨ ClosedNode g dist u) →
    lookupD (relaxAll cur c es dist prev pq).1 cur = some c ∧
    DistSound g starts (relaxAll cur c es dist prev pq).1 ∧
    PqSound (relaxAll cur c es dist prev pq).1 (relaxAll cur c es dist prev pq).2.2 ∧
    StartsLe starts (relaxAll cur c es dist prev pq).1 ∧
    BestComplete ends stopOf (relaxAll cur c es dist prev pq).1
      (relaxAll cur c es dist prev pq).2.2 best ∧
    (∀ u, u ≠ cur → ∀ du, lookupD (relaxAll cur c es dist prev pq).1 u = some du →
      OpenNode (relaxAll cur c es dist prev pq).1 (relaxAll cur c es dist prev pq).2.2 u ∨
      ClosedNode g (relaxAll cur c es dist prev pq).1 u) ∧
    (∀ p ∈ es, ∃ dn, lookupD (relaxAll cur c es dist prev pq).1 p.1 = some dn ∧
      dn ≤ c + p.2) ∧
    DistMono dist (relaxAll cur c es dist prev pq).1 ∧
    (∀ e ∈ pq, e ∈ (relaxAll cur c es dist prev pq).2.2) := by
  intro es
  induction es with
  | nil =>
    intro dist prev pq _ hc hds hpq hsl hbc hoc
    refine ⟨hc, hds, hpq, hsl, hbc, hoc, ?_, DistMono.rfl dist, fun e he => he⟩
    intro p hp
    simp at hp
  | cons e es ih =>
    intro dist prev pq hsub hc hds hpq hsl hbc hoc
    obtain ⟨nxt, w⟩ := e
    have hedge : (nxt, w) ∈ g cur := hsub _ (List.mem_cons_self _ _)
    have hw : 0 ≤ w := hnn cur (nxt, w) hedge
    have hsub' : ∀ e ∈ es, e ∈ g cur := fun e he => hsub e (List.mem_cons_of_mem _ he)
    show lookupD (relaxAll cur c ((nxt, w) :: es) dist prev pq).1 cur = some c ∧ _
    rw [relaxAll]
    by_cases hlt : ltInf (c + w) (lookupD dist nxt) = true
    · rw [if_pos hlt]
      set nd := c + w with hnd
      set dist1 := insertD dist nxt nd with hdist1
      set prev1 := insertD prev nxt cur with hprev1
      set pq1 := (nd, nxt) :: pq with hpq1
      have hne : nxt ≠ cur := by
        rintro rfl
        rw [hc] at hlt
        have := ltInf_true_some hlt
        linarith
      have hl1 : ∀ x, lookupD dist1 x = if x = nxt then some nd else lookupD dist x :=
        fun x => lookupD_insertD dist nxt nd x
      have hc1 : lookupD dist1 cur = some c := by
        rw [hl1, if_neg (fun h => hne h.symm)]
        exact hc
      have hds1 : DistSound g starts dist1 := by
        intro u d hu
        rw [hl1] at hu
        by_cases hun : u = nxt
        · subst hun
          rw [if_pos rfl] at hu
          obtain rfl : nd = d := Option.some.inj hu
          obtain ⟨s, cs, c0, hmem, hpath, hval⟩ := hds cur c hc
          exact ⟨s, cs, c0 + w, hmem, PathW.snoc hpath hedge, by rw [hnd, hval]; ring⟩
        · rw [if_neg hun] at hu
          exact hds u d hu
      have hpq1s : PqSound dist1 pq1 := by
        intro d u hu
        rcases List.mem_cons.mp hu with heq | hmem
        · have h1 : d = nd := congrArg Prod.fst heq
          have h2 : u = nxt := congrArg Prod.snd heq
          subst h1; subst h2
          exact ⟨nd, by rw [hl1, if_pos rfl], le_refl nd⟩
        · obtain ⟨du, hdu, hle⟩ := hpq d u hmem
          by_cases hun : u = nxt
          · subst hun
            rw [hdu] at hlt
            have := ltInf_true_some hlt
            exact ⟨nd, by rw [hl1, if_pos rfl], le_trans (le_of_lt this) hle⟩
          · exact ⟨du, by rw [hl1, if_neg hun]; exact hdu, hle⟩
      have hsl1 : StartsLe starts dist1 := by
        intro s cs hmem
        obtain ⟨ds, hdsx, hle⟩ := hsl s cs hmem
        by_cases hun : s = nxt
        · subst hun
          rw [hdsx] at hlt
          have := ltInf_true_some hlt
          exact ⟨nd, by rw [hl1, if_pos rfl], le_trans (le_of_lt this) hle⟩
        · exact ⟨ds, by rw [hl1, if_neg hun]; exact hdsx, hle⟩
      have hbc1 : BestComplete ends stopOf dist1 pq1 best := by
        intro u du ce hdu hce
        by_cases hun : u = nxt
        · subst hun
          rw [hl1, if_pos rfl] at hdu
          obtain rfl : nd = du := Option.some.inj hdu
          exact Or.inr ⟨nd, List.mem_cons_self _ _, le_refl nd⟩
        · rw [hl1, if_neg hun] at hdu
          rcases hbc u du ce hdu hce with h | ⟨d, hdm, hle⟩
          · exact Or.inl h
          · exact Or.inr ⟨d, List.mem_cons_of_mem _ hdm, hle⟩
      have hoc1 : ∀ u, u ≠ cur → ∀ du, lookupD dist1 u = some du →
          OpenNode dist1 pq1 u ∨ ClosedNode g dist1 u := by
        intro u hucur du hdu
        by_cases hun : u = nxt
        · subst hun
          rw [hl1, if_pos rfl] at hdu
          obtain rfl : nd = du := Option.some.inj hdu
          exact Or.inl ⟨nd, nd, by rw [hl1, if_pos rfl], List.mem_cons_self _ _, le_refl nd⟩
        · rw [hl1, if_neg hun] at hdu
          rcases hoc u hucur du hdu with ⟨du', dw, hldu, hmem, hle⟩ | hcl
          · exact Or.inl ⟨du', dw, by rw [hl1, if_neg hun]; exact hldu,
              List.mem_cons_of_mem _ hmem, hle⟩
          · right
            intro du'' hdu'' p hp
            rw [hl1, if_neg hun] at hdu''
            obtain ⟨dn, hdn, hlen⟩ := hcl du'' hdu'' p hp
            by_cases hpn : p.1 = nxt
            · rw [hpn] at hdn
              rw [hdn] at hlt
              have := ltInf_true_some hlt
              exact ⟨nd, by rw [hl1, hpn, if_pos rfl], le_trans (le_of_lt this) hlen⟩
            · exact ⟨dn, by rw [hl1, if_neg hpn]; exact hdn, hlen⟩
      have hmono1 : DistMono dist dist1 := by
        intro u d hu
        by_cases hun : u = nxt
        · subst hun
          rw [hu] at hlt
          have := ltInf_true_some hlt
          exact ⟨nd, by rw [hl1, if_pos rfl], le_of_lt this⟩
        · exact ⟨d, by rw [hl1, if_neg hun]; exact hu, le_refl d⟩
      obtain ⟨rc, rds, rpq, rsl, rbc, roc, rrel, rmono, rkeep⟩ :=
        ih dist1 prev1 pq1 hsub' hc1 hds1 hpq1s hsl1 hbc1 hoc1
      refine ⟨rc, rds, rpq, rsl, rbc, roc, ?_, DistMono.trans hmono1 rmono, ?_⟩
      · intro p hp
        rcases List.mem_cons.mp hp with rfl | hmem
        · obtain ⟨dn, hdn, hlen⟩ := rmono nxt nd (by rw [hl1, if_pos rfl])
          exact ⟨dn, hdn, le_trans hlen (le_refl nd)⟩
        · exact rrel p hmem
      · intro e he
        exact rkeep e (List.mem_cons_of_mem _ he)
    · rw [if_neg hlt]
      obtain ⟨dnx, hdnx, hlenx⟩ := ltInf_false (Bool.of_not_eq_true hlt)
      obtain ⟨rc, rds, rpq, rsl, rbc, roc, rrel, rmono, rkeep⟩ :=
        ih dist prev pq hsub' hc hds hpq hsl hbc hoc
      refine ⟨rc, rds, rpq, rsl, rbc, roc, ?_, rmono, rkeep⟩
      intro p hp
      rcases List.mem_cons.mp hp with rfl | hmem
      · obtain ⟨dn, hdn, hlen⟩ := rmono nxt dnx hdnx
        exact ⟨dn, hdn, le_trans hlen hlenx⟩
      · exact rrel p hmem

theorem dijkstraLoop_emptyq {g : Graph} {ends : List (ℕ × ℚ)} {rs_map : ℕ → RouteStop}
    {fuel : ℕ} {st : DState} (hm : pqMin st.pq = none) :
    dijkstraLoop g ends rs_map fuel st = some st := by
  cases fuel with
  | zero => rw [dijkstraLoop, hm]
  | succ n => rw [dijkstraLoop, hm]

theorem dijkstraLoop_zero_some {g : Graph} {ends : List (ℕ × ℚ)} {rs_map : ℕ → RouteStop}
    {st : DState} {m : ℚ × ℕ} (hm : pqMin st.pq = some m) :
    dijkstraLoop g ends rs_map 0 st = none := by
  rw [dijkstraLoop, hm]

theorem dijkstraLoop_succ {g : Graph} {ends : List (ℕ × ℚ)} {rs_map : ℕ → RouteStop}
    {fuel : ℕ} {st : DState} {c : ℚ} {cur : ℕ} (hm : pqMin st.pq = some (c, cur)) :
    dijkstraLoop g ends rs_map (fuel + 1) st =
      (if staleEntry st.dist c cur then
        dijkstraLoop g ends rs_map fuel { st with pq := st.pq.erase (c, cur) }
      else
        let bp : Option ℚ × Option ℕ :=
          match lookupD ends (rs_map cur).stop_id with
          | some ce =>
            let total := c + ce
            if ltInf total st.best_dist then (some total, some cur)
            else (st.best_dist, st.best_end)
          | none => (st.best_dist, st.best_end)
        let r := relaxAll cur c (g cur) st.dist st.prev (st.pq.erase (c, cur))
        dijkstraLoop g ends rs_map fuel ⟨r.1, r.2.1, r.2.2, bp.2, bp.1⟩) := by
  rw [dijkstraLoop, hm]

/-- The search loop preserves the invariant and, when it returns a state,
that state has an empty queue. -/
theorem dijkstraLoop_spec (g : Graph) (starts ends : List (ℕ × ℚ))
    (rs_map : ℕ → RouteStop) (hnn : ∀ u, ∀ p ∈ g u, 0 ≤ p.2) :
    ∀ (fuel : ℕ) (st st' : DState),
    DInv g starts ends (fun i => (rs_map i).stop_id) st →
    dijkstraLoop g ends rs_map fuel st = some st' →
    DInv g starts ends (fun i => (rs_map i).stop_id) st' ∧ st'.pq = [] := by
  intro fuel
  induction fuel with
  | zero =>
    intro st st' hinv hrun
    cases hm : pqMin st.pq with
    | none =>
      rw [dijkstraLoop_emptyq hm] at hrun
      obtain rfl := Option.some.inj hrun
      exact ⟨hinv, pqMin_eq_none.mp hm⟩
    | some m =>
      rw [dijkstraLoop_zero_some hm] at hrun
      exact absurd hrun (by simp)
  | succ fuel ih =>
    intro st st' hinv hrun
    cases hm : pqMin st.pq with
    | none =>
      rw [dijkstraLoop_emptyq hm] at hrun
      obtain rfl := Option.some.inj hrun
      exact ⟨hinv, pqMin_eq_none.mp hm⟩
    | some m =>
      obtain ⟨c, cur⟩ := m
      rw [dijkstraLoop_succ hm] at hrun
      have hmem : (c, cur) ∈ st.pq := pqMin_mem hm
      have hminle : ∀ e ∈ st.pq, c ≤ e.1 := pqMin_le hm
      by_cases hstale : staleEntry st.dist c cur = true
      · rw [if_pos hstale] at hrun
        obtain ⟨d, hd, hdc⟩ := staleEntry_true hstale
        have hinv1 : DInv g starts ends (fun i => (rs_map i).stop_id)
            { st with pq := st.pq.erase (c, cur) } := by
          refine ⟨hinv.distSound, ?_, hinv.startsLe, ?_, ?_, hinv.bestSound⟩
          · intro dw u hw
            exact hinv.pqSound dw u (List.mem_of_mem_erase hw)
          · intro u du ce hdu hce
            rcases hinv.bestComplete u du ce hdu hce with h | ⟨dw, hwmem, hwle⟩
            · exact Or.inl h
            · refine Or.inr ⟨dw, ?_, hwle⟩
              have hne : (dw, u) ≠ (c, cur) := by
                intro heq
                have h1 : dw = c := congrArg Prod.fst heq
                have h2 : u = cur := congrArg Prod.snd heq
                subst h1; subst h2
                rw [hd] at hdu
                obtain rfl := Option.some.inj hdu
                exact absurd hwle (not_le.mpr hdc)
              exact (List.mem_erase_of_ne hne).mpr hwmem
          · intro u du hdu
            rcases hinv.openClosed u du hdu with ⟨du', dw, h1, h2, h3⟩ | hcl
            · left
              refine ⟨du', dw, h1, ?_, h3⟩
              have hne : (dw, u) ≠ (c, cur) := by
                intro heq
                have ha : dw = c := congrArg Prod.fst heq
                have hb : u = cur := congrArg Prod.snd heq
                subst ha; subst hb
                rw [hd] at h1
                obtain rfl := Option.some.inj h1
                exact absurd h3 (not_le.mpr hdc)
              exact (List.mem_erase_of_ne hne).mpr h2
            · exact Or.inr hcl
        exact ih _ st' hinv1 hrun
      · rw [if_neg hstale] at hrun
        obtain ⟨du0, hdu0, hdu0le⟩ := hinv.pqSound c cur hmem
        have hcge : c ≤ du0 :=
          staleEntry_false_some (Bool.of_not_eq_true hstale) hdu0
        have hcc : lookupD st.dist cur = some c := by
          rw [hdu0]
          exact congrArg some (le_antisymm hcge hdu0le).symm
        -- the common facts about the updated best pair, by cases on the
        -- destination lookup and the improvement test
        cases hce : lookupD ends ((rs_map cur).stop_id) with
        | none =>
          simp only [hce] at hrun
          have hbmono : ∀ t x, st.best_dist = some t → t ≤ x →
              ∃ t', st.best_dist = some t' ∧ t' ≤ x := fun t x ht hle => ⟨t, ht, hle⟩
          have hbc2 : BestComplete ends (fun i => (rs_map i).stop_id) st.dist
              (st.pq.erase (c, cur)) st.best_dist := by
            intro u du ce' hdu hce'
            by_cases hu : u = cur
            · subst hu
              rw [hce] at hce'
              exact absurd hce' (by simp)
            · rcases hinv.bestComplete u du ce' hdu hce' with h | ⟨dw, hwmem, hwle⟩
              · exact Or.inl h
              · refine Or.inr ⟨dw, ?_, hwle⟩
                have hne : (dw, u) ≠ (c, cur) := by
                  intro heq
                  exact hu (congrArg Prod.snd heq)
                exact (List.mem_erase_of_ne hne).mpr hwmem
          have hoc2 : ∀ u, u ≠ cur → ∀ du, lookupD st.dist u = some du →
              OpenNode st.dist (st.pq.erase (c, cur)) u ∨ ClosedNode g st.dist u := by
            intro u hu du hdu
            rcases hinv.openClosed u du hdu with ⟨du', dw, h1, h2, h3⟩ | hcl
            · left
              refine ⟨du', dw, h1, ?_, h3⟩
              have hne : (dw, u) ≠ (c, cur) := by
                intro heq
                exact hu (congrArg Prod.snd heq)
              exact (List.mem_erase_of_ne hne).mpr h2
            · exact Or.inr hcl
          obtain ⟨rc, rds, rpq, rsl, rbc, roc, rrel, rmono, rkeep⟩ :=
            relaxAll_spec g starts ends (fun i => (rs_map i).stop_id) cur c
              st.best_dist hnn (g cur) st.dist st.prev (st.pq.erase (c, cur))
              (fun e he => he) hcc hinv.distSound
              (fun dw u hw => hinv.pqSound dw u (List.mem_of_mem_erase hw))
              hinv.startsLe hbc2 hoc2
          have hinv2 : DInv g starts ends (fun i => (rs_map i).stop_id)
              ⟨(relaxAll cur c (g cur) st.dist st.prev (st.pq.erase (c, cur))).1,
               (relaxAll cur c (g cur) st.dist st.prev (st.pq.erase (c, cur))).2.1,
               (relaxAll cur c (g cur) st.dist st.prev (st.pq.erase (c, cur))).2.2,
               st.best_end, st.best_dist⟩ := by
            refine ⟨rds, rpq, rsl, rbc, ?_, hinv.bestSound⟩
            intro u du hdu
            by_cases hu : u = cur
            · subst hu
              right
              intro du' hdu' p hp
              rw [rc] at hdu'
              obtain rfl := Option.some.inj hdu'
              exact rrel p hp
            · exact roc u hu du hdu
          exact ih _ st' hinv2 hrun
        | some ce =>
          simp only [hce] at hrun
          by_cases hlt : ltInf (c + ce) st.best_dist = true
          · rw [if_pos hlt] at hrun
            have hbmono : ∀ t x, st.best_dist = some t → t ≤ x →
                ∃ t', (some (c + ce) : Option ℚ) = some t' ∧ t' ≤ x := by
              intro t x ht hle
              rw [ht] at hlt
              exact ⟨c + ce, rfl, le_trans (le_of_lt (ltInf_true_some hlt)) hle⟩
            have hbcur : ∃ t', (some (c + ce) : Option ℚ) = some t' ∧ t' ≤ c + ce :=
              ⟨c + ce, rfl, le_refl _⟩
            have hbc2 : BestComplete ends (fun i => (rs_map i).stop_id) st.dist
                (st.pq.erase (c, cur)) (some (c + ce)) := by
              intro u du ce' hdu hce'
              by_cases hu : u = cur
              · subst hu
                rw [hcc] at hdu
                obtain rfl := Option.some.inj hdu
                rw [hce] at hce'
                obtain rfl := Option.some.inj hce'
                exact Or.inl hbcur
              · rcases hinv.bestComplete u du ce' hdu hce' with ⟨t, ht, hle⟩ | ⟨dw, hwmem, hwle⟩
                · exact Or.inl (hbmono t (du + ce') ht hle)
                · refine Or.inr ⟨dw, ?_, hwle⟩
                  have hne : (dw, u) ≠ (c, cur) := by
                    intro heq
                    exact hu (congrArg Prod.snd heq)
                  exact (List.mem_erase_of_ne hne).mpr hwmem
            have hoc2 : ∀ u, u ≠ cur → ∀ du, lookupD st.dist u = some du →
                OpenNode st.dist (st.pq.erase (c, cur)) u ∨ ClosedNode g st.dist u := by
              intro u hu du hdu
              rcases hinv.openClosed u du hdu with ⟨du', dw, h1, h2, h3⟩ | hcl
              · left
                refine ⟨du', dw, h1, ?_, h3⟩
                have hne : (dw, u) ≠ (c, cur) := by
                  intro heq
                  exact hu (congrArg Prod.snd heq)
                exact (List.mem_erase_of_ne hne).mpr h2
              · exact Or.inr hcl
            obtain ⟨rc, rds, rpq, rsl, rbc, roc, rrel, rmono, rkeep⟩ :=
              relaxAll_spec g starts ends (fun i => (rs_map i).stop_id) cur c
                (some (c + ce)) hnn (g cur) st.dist st.prev (st.pq.erase (c, cur))
                (fun e he => he) hcc hinv.distSound
                (fun dw u hw => hinv.pqSound dw u (List.mem_of_mem_erase hw))
                hinv.startsLe hbc2 hoc2
            have hbs2 : BestSound g starts ends (fun i => (rs_map i).stop_id)
                (some cur) (some (c + ce)) := by
              right
              obtain ⟨s, cs, c0, hmems, hpath, hval⟩ := hinv.distSound cur c hcc
              exact ⟨cur, c + ce, rfl, rfl,
                ⟨s, cs, c0, ce, hmems, hpath, hce, by rw [hval]⟩⟩
            have hinv2 : DInv g starts ends (fun i => (rs_map i).stop_id)
                ⟨(relaxAll cur c (g cur) st.dist st.prev (st.pq.erase (c, cur))).1,
                 (relaxAll cur c (g cur) st.dist st.prev (st.pq.erase (c, cur))).2.1,
                 (relaxAll cur c (g cur) st.dist st.prev (st.pq.erase (c, cur))).2.2,
                 some cur, some (c + ce)⟩ := by
              refine ⟨rds, rpq, rsl, rbc, ?_, hbs2⟩
              intro u du hdu
              by_cases hu : u = cur
              · subst hu
                right
                intro du' hdu' p hp
                rw [rc] at hdu'
                obtain rfl := Option.some.inj hdu'
                exact rrel p hp
              · exact roc u hu du hdu
            exact ih _ st' hinv2 hrun
          · rw [if_neg hlt] at hrun
            obtain ⟨tb, htb, htble⟩ := ltInf_false (Bool.of_not_eq_true hlt)
            have hbc2 : BestComplete ends (fun i => (rs_map i).stop_id) st.dist
                (st.pq.erase (c, cur)) st.best_dist := by
              intro u du ce' hdu hce'
              by_cases hu : u = cur
              · subst hu
                rw [hcc] at hdu
                obtain rfl := Option.some.inj hdu
                rw [hce] at hce'
                obtain rfl := Option.some.inj hce'
                exact Or.inl ⟨tb, htb, htble⟩
              · rcases hinv.bestComplete u du ce' hdu hce' with h | ⟨dw, hwmem, hwle⟩
                · exact Or.inl h
                · refine Or.inr ⟨dw, ?_, hwle⟩
                  have hne : (dw, u) ≠ (c, cur) := by
                    intro heq
                    exact hu (congrArg Prod.snd heq)
                  exact (List.mem_erase_of_ne hne).mpr hwmem
            have hoc2 : ∀ u, u ≠ cur → ∀ du, lookupD st.dist u = some du →
                OpenNode st.dist (st.pq.erase (c, cur)) u ∨ ClosedNode g st.dist u := by
              intro u hu du hdu
              rcases hinv.openClosed u du hdu with ⟨du', dw, h1, h2, h3⟩ | hcl
              · left
                refine ⟨du', dw, h1, ?_, h3⟩
                have hne : (dw, u) ≠ (c, cur) := by
                  intro heq
                  exact hu (congrArg Prod.snd heq)
                exact (List.mem_erase_of_ne hne).mpr h2
              · exact Or.inr hcl
            obtain ⟨rc, rds, rpq, rsl, rbc, roc, rrel, rmono, rkeep⟩ :=
              relaxAll_spec g starts ends (fun i => (rs_map i).stop_id) cur c
                st.best_dist hnn (g cur) st.dist st.prev (st.pq.erase (c, cur))
                (fun e he => he) hcc hinv.distSound
                (fun dw u hw => hinv.pqSound dw u (List.mem_of_mem_erase hw))
                hinv.startsLe hbc2 hoc2
            have hinv2 : DInv g starts ends (fun i => (rs_map i).stop_id)
                ⟨(relaxAll cur c (g cur) st.dist st.prev (st.pq.erase (c, cur))).1,
                 (relaxAll cur c (g cur) st.dist st.prev (st.pq.erase (c, cur))).2.1,
                 (relaxAll cur c (g cur) st.dist st.prev (st.pq.erase (c, cur))).2.2,
                 st.best_end, st.best_dist⟩ := by
              refine ⟨rds, rpq, rsl, rbc, ?_, hinv.bestSound⟩
              intro u du hdu
              by_cases hu : u = cur
              · subst hu
                right
                intro du' hdu' p hp
                rw [rc] at hdu'
                obtain rfl := Option.some.inj hdu'
                exact rrel p hp
              · exact roc u hu du hdu
            exact ih _ st' hinv2 hrun

theorem initD_fold : ∀ (l : List (ℕ × ℚ)) (st0 : DState),
    l.foldl (fun st p =>
      { st with dist := insertD st.dist p.1 p.2, pq := (p.2, p.1) :: st.pq }) st0 =
    ⟨l.reverse ++ st0.dist, st0.prev,
      (l.reverse.map (fun p => (p.2, p.1))) ++ st0.pq, st0.best_end, st0.best_dist⟩ := by
  intro l
  induction l with
  | nil => intro st0; rfl
  | cons p rest ih =>
    intro st0
    rw [List.foldl_cons, ih]
    simp [insertD]

theorem initDState_eq (starts : List (ℕ × ℚ)) :
    initDState starts =
      ⟨starts.reverse, [], starts.reverse.map (fun p => (p.2, p.1)), none, none⟩ := by
  unfold initDState
  rw [initD_fold]
  simp

theorem NodupKeys.reverse {α : Type} {l : List (ℕ × α)} (h : NodupKeys l) :
    NodupKeys l.reverse := by
  unfold NodupKeys at h ⊢
  rw [List.map_reverse]
  exact List.nodup_reverse.mpr h

theorem initDState_inv (g : Graph) (starts ends : List (ℕ × ℚ)) (stopOf : ℕ → ℕ)
    (hs : NodupKeys starts) : DInv g starts ends stopOf (initDState starts) := by
  rw [initDState_eq]
  have hsr : NodupKeys starts.reverse := hs.reverse
  have hlook : ∀ u d, lookupD starts.reverse u = some d → (u, d) ∈ starts :=
    fun u d h => List.mem_reverse.mp (lookupD_mem h)
  have hmemlook : ∀ u d, (u, d) ∈ starts → lookupD starts.reverse u = some d :=
    fun u d h => mem_lookupD hsr (List.mem_reverse.mpr h)
  have hpqmem : ∀ u d, (u, d) ∈ starts →
      (d, u) ∈ starts.reverse.map (fun p => (p.2, p.1)) := by
    intro u d h
    exact List.mem_map_of_mem (fun p => (p.2, p.1)) (List.mem_reverse.mpr h)
  have hpqmem' : ∀ d u, (d, u) ∈ starts.reverse.map (fun p => (p.2, p.1)) →
      (u, d) ∈ starts := by
    intro d u h
    obtain ⟨p, hp, heq⟩ := List.mem_map.mp h
    have h1 : p.2 = d := congrArg Prod.fst heq
    have h2 : p.1 = u := congrArg Prod.snd heq
    have : p = (u, d) := by
      ext
      · exact h2
      · exact h1
    rw [← this]
    exact List.mem_reverse.mp hp
  refine ⟨?_, ?_, ?_, ?_, ?_, Or.inl ⟨rfl, rfl⟩⟩
  · intro u d hu
    exact ⟨u, d, 0, hlook u d hu, PathW.refl u, by ring⟩
  · intro d u hd
    exact ⟨d, hmemlook u d (hpqmem' d u hd), le_refl d⟩
  · intro s cs hmem
    exact ⟨cs, hmemlook s cs hmem, le_refl cs⟩
  · intro u du ce hdu _
    exact Or.inr ⟨du, hpqmem u du (hlook u du hdu), le_refl du⟩
  · intro u du hdu
    exact Or.inl ⟨du, du, hdu, hpqmem u du (hlook u du hdu), le_refl du⟩

theorem path_closure (g : Graph) (dist : List (ℕ × ℚ))
    (hcl : ∀ u du, lookupD dist u = some du → ClosedNode g dist u) :
    ∀ {s v : ℕ} {c : ℚ}, PathW g s v c → ∀ {d0 : ℚ}, lookupD dist s = some d0 →
    ∃ dv, lookupD dist v = some dv ∧ dv ≤ d0 + c := by
  intro s v c hp
  induction hp with
  | refl =>
    intro d0 h0
    exact ⟨d0, h0, by simp⟩
  | snoc hpath hedge ih =>
    intro d0 h0
    obtain ⟨dv, hdv, hlev⟩ := ih h0
    obtain ⟨dn, hdn, hlen⟩ := hcl _ dv hdv dv hdv _ hedge
    refine ⟨dn, hdn, ?_⟩
    simp only at hlen
    linarith

/-- C1: for every finite graph with non-negative edge weights, every start
node cost map and every destination stop cost map, whenever the dijkstra
search runs to completion it returns a destination node whose total cost
(initial cost + shortest walk weight + remaining cost of its stop) is the
minimum over all realizable start-to-destination combinations; in
particular it does not stop at the first destination-stop node reached,
and when no combination is reachable it returns the None signal. -/
theorem dijkstra_min (g : Graph) (starts ends : List (ℕ × ℚ)) (rs_map : ℕ → RouteStop)
    (fuel : ℕ) (res : Option ℕ) (prev : List (ℕ × ℕ))
    (hnn : ∀ u, ∀ p ∈ g u, 0 ≤ p.2)
    (hs : NodupKeys starts)
    (hrun : dijkstra g starts ends rs_map fuel = some (res, prev)) :
    (∀ v, res = some v →
      ∃ t, TripTotalAt g starts ends (fun i => (rs_map i).stop_id) v t ∧
        ∀ t', TripTotal g starts ends (fun i => (rs_map i).stop_id) t' → t ≤ t') ∧
    (res = none → ∀ t, ¬ TripTotal g starts ends (fun i => (rs_map i).stop_id) t) := by
  unfold dijkstra at hrun
  cases hloop : dijkstraLoop g ends rs_map fuel (initDState starts) with
  | none =>
    rw [hloop] at hrun
    simp at hrun
  | some st' =>
    rw [hloop] at hrun
    simp only [Option.map_some', Option.some.injEq, Prod.mk.injEq] at hrun
    obtain ⟨hbe, hbp⟩ := hrun
    obtain ⟨hinv, hpq⟩ := dijkstraLoop_spec g starts ends rs_map hnn fuel _ st'
      (initDState_inv g starts ends _ hs) hloop
    have hallclosed : ∀ u du, lookupD st'.dist u = some du → ClosedNode g st'.dist u := by
      intro u du hdu
      rcases hinv.openClosed u du hdu with ⟨_, dw, _, hmem, _⟩ | hcl
      · rw [hpq] at hmem
        exact absurd hmem (List.not_mem_nil _)
      · exact hcl
    have hmin : ∀ t', TripTotal g starts ends (fun i => (rs_map i).stop_id) t' →
        ∃ tb, st'.best_dist = some tb ∧ tb ≤ t' := by
      intro t' htp
      obtain ⟨v', s, cs, c0, ce, hmems, hpath, hce, rfl⟩ := htp
      obtain ⟨d0, h0, h0le⟩ := hinv.startsLe s cs hmems
      obtain ⟨dv, hdv, hdvle⟩ := path_closure g st'.dist hallclosed hpath h0
      rcases hinv.bestComplete v' dv ce hdv hce with ⟨t, ht, hle⟩ | ⟨dw, hwmem, _⟩
      · exact ⟨t, ht, by linarith⟩
      · rw [hpq] at hwmem
        exact absurd hwmem (List.not_mem_nil _)
    constructor
    · intro v hv
      rcases hinv.bestSound with ⟨hben, _⟩ | ⟨v0, t0, hbev, hbdv, htt⟩
      · rw [← hbe, hben] at hv
        exact absurd hv (by simp)
      · have hv0 : v0 = v := by
          rw [← hbe, hbev] at hv
          exact Option.some.inj hv
        subst hv0
        refine ⟨t0, htt, ?_⟩
        intro t' htp
        obtain ⟨tb, htb, hlb⟩ := hmin t' htp
        rw [hbdv] at htb
        obtain rfl := Option.some.inj htb
        exact hlb
    · intro hv t' htp
      obtain ⟨tb, htb, _⟩ := hmin t' htp
      rcases hinv.bestSound with ⟨_, hbdn⟩ | ⟨v0, t0, hbev, _, _⟩
      · rw [hbdn] at htb
        exact Option.noConfusion htb
      · rw [← hbe, hbev] at hv
        exact Option.noConfusion hv

/-- Four-node scenario graph: from start node 1, destination-stop node 2
is reached at cost 1 (total 11 after its stop's remaining cost 10), while
destination-stop node 4 costs 2 to reach with remaining cost 1/10, so the
cheaper total is found only after a destination node was already popped. -/
def wG : Graph :=
  fun u => if u = 1 then [(2, 1), (3, 3/2)] else if u = 3 then [(4, 1/2)] else []

/-- Node record carrying just the stop id the search consults. -/
def wRs (sid : ℕ) : RouteStop :=
  { rsDefault with stop_id := sid }

/-- Node index of the four-node scenario. -/
def wMap : ℕ → RouteStop :=
  fun i => if i = 2 then wRs 200 else if i = 4 then wRs 400 else wRs 0

/-- Witness for C1: on the four-node graph the completed search returns
node 4, whose total is the minimum over all realizable combinations, even
though destination node 2 was popped first. -/
theorem dijkstra_min_witness :
    (∀ u, ∀ p ∈ wG u, 0 ≤ p.2) ∧ NodupKeys [(1, (0 : ℚ))] ∧
    dijkstra wG [(1, 0)] [(200, 10), (400, 1/10)] wMap 10 =
      some (some 4, [(4, 3), (3, 1), (2, 1)]) ∧
    (∃ t, TripTotalAt wG [(1, 0)] [(200, 10), (400, 1/10)]
        (fun i => (wMap i).stop_id) 4 t ∧
      ∀ t', TripTotal wG [(1, 0)] [(200, 10), (400, 1/10)]
        (fun i => (wMap i).stop_id) t' → t ≤ t') := by
  have hnn : ∀ u, ∀ p ∈ wG u, 0 ≤ p.2 := by
    intro u p hp
    unfold wG at hp
    split_ifs at hp with h1 h2
    · rcases List.mem_cons.mp hp with rfl | hp2
      · norm_num
      · rcases List.mem_singleton.mp hp2 with rfl
        norm_num
    · rcases List.mem_singleton.mp hp with rfl
      norm_num
    · exact absurd hp (List.not_mem_nil p)
  have hs : NodupKeys [(1, (0 : ℚ))] := by
    unfold NodupKeys
    decide
  have hrun : dijkstra wG [(1, 0)] [(200, 10), (400, 1/10)] wMap 10 =
      some (some 4, [(4, 3), (3, 1), (2, 1)]) := by
    with_unfolding_all rfl
  exact ⟨hnn, hs, hrun,
    (dijkstra_min wG [(1, 0)] [(200, 10), (400, 1/10)] wMap 10 (some 4)
      [(4, 3), (3, 1), (2, 1)] hnn hs hrun).1 4 rfl⟩

/-! ## Graph-builder edge characterizations -/

/-- Two list elements in consecutive positions, the pairs the ride pass
iterates over. -/
inductive AdjPair (a b : RouteStop) : List RouteStop → Prop
  | head (rest : List RouteStop) : AdjPair a b (a :: b :: rest)
  | tail (x : RouteStop) {l : List RouteStop} : AdjPair a b l → AdjPair a b (x :: l)

theorem AdjPair.mem_left {a b : RouteStop} : ∀ {l : List RouteStop},
    AdjPair a b l → a ∈ l := by
  intro l h
  induction h with
  | head rest => exact List.mem_cons_self _ _
  | tail x _ ih => exact List.mem_cons_of_mem _ ih

theorem AdjPair.mem_right {a b : RouteStop} : ∀ {l : List RouteStop},
    AdjPair a b l → b ∈ l := by
  intro l h
  induction h with
  | head rest => exact List.mem_cons_of_mem _ (List.mem_cons_self _ _)
  | tail x _ ih => exact List.mem_cons_of_mem _ ih

theorem adjPair_nil {a b : RouteStop} : ¬ AdjPair a b [] := by
  intro h
  cases h

theorem adjPair_singleton {a b x : RouteStop} : ¬ AdjPair a b [x] := by
  intro h
  cases h with
  | tail _ h' => exact adjPair_nil h'

theorem adjPair_cons_cons {a b x y : RouteStop} {rest : List RouteStop} :
    AdjPair a b (x :: y :: rest) ↔ (a = x ∧ b = y) ∨ AdjPair a b (y :: rest) := by
  constructor
  · intro h
    cases h with
    | head _ => exact Or.inl ⟨rfl, rfl⟩
    | tail _ h' => exact Or.inr h'
  · intro h
    rcases h with ⟨rfl, rfl⟩ | h'
    · exact AdjPair.head rest
    · exact AdjPair.tail x h'

theorem mem_addEdge {g : Graph} {u v x v' : ℕ} {w w' : ℚ} :
    (v', w') ∈ addEdge g u v w x ↔ (v', w') ∈ g x ∨ (x = u ∧ v' = v ∧ w' = w) := by
  unfold addEdge
  by_cases hx : x = u
  · subst hx
    rw [if_pos rfl]
    constructor
    · intro h
      rcases List.mem_append.mp h with h1 | h2
      · exact Or.inl h1
      · have heq := List.mem_singleton.mp h2
        exact Or.inr ⟨rfl, congrArg Prod.fst heq, congrArg Prod.snd heq⟩
    · rintro (h | ⟨_, rfl, rfl⟩)
      · exact List.mem_append.mpr (Or.inl h)
      · exact List.mem_append.mpr (Or.inr (List.mem_singleton.mpr rfl))
  · rw [if_neg hx]
    simp [hx]

/-- Generic membership shape of a graph-extending fold: the result has an
edge exactly when the seed had it or some processed item contributes it. -/
theorem mem_graph_foldl {ι : Type} (F : Graph → ι → Graph) (P : ι → ℕ → ℕ → ℚ → Prop)
    (hF : ∀ g i x v w, ((v, w) ∈ F g i x ↔ (v, w) ∈ g x ∨ P i x v w)) :
    ∀ (l : List ι) (g : Graph) (x v : ℕ) (w : ℚ),
    ((v, w) ∈ (l.foldl F g) x ↔ (v, w) ∈ g x ∨ ∃ i ∈ l, P i x v w) := by
  intro l
  induction l with
  | nil => intro g x v w; simp
  | cons i rest ih =>
    intro g x v w
    rw [List.foldl_cons, ih]
    rw [hF]
    constructor
    · rintro ((h | hp) | ⟨j, hj, hpj⟩)
      · exact Or.inl h
      · exact Or.inr ⟨i, List.mem_cons_self _ _, hp⟩
      · exact Or.inr ⟨j, List.mem_cons_of_mem _ hj, hpj⟩
    · rintro (h | ⟨j, hj, hpj⟩)
      · exact Or.inl (Or.inl h)
      · rcases List.mem_cons.mp hj with rfl | hj'
        · exact Or.inl (Or.inr hpj)
        · exact Or.inr ⟨j, hj', hpj⟩

/-- The contribution of one consecutive pair in the ride pass. -/
def RideEdgeSpec (l : List RouteStop) (x v : ℕ) (w : ℚ) : Prop :=
  ∃ a b, AdjPair a b l ∧ x = a.id ∧ v = b.id ∧
    ∃ da db, a.distance_from_start = some da ∧ b.distance_from_start = some db ∧
      w = db - da

theorem mem_rideFold : ∀ (l : List RouteStop) (g : Graph) (x v : ℕ) (w : ℚ),
    ((v, w) ∈ rideFold l g x ↔ (v, w) ∈ g x ∨ RideEdgeSpec l x v w) := by
  intro l
  induction l with
  | nil =>
    intro g x v w
    unfold rideFold RideEdgeSpec
    simp only [iff_self_or]
    rintro ⟨a, b, hab, _⟩
    exact absurd hab adjPair_nil
  | cons a l' ih =>
    intro g x v w
    cases l' with
    | nil =>
      unfold rideFold RideEdgeSpec
      simp only [iff_self_or]
      rintro ⟨a', b', hab, _⟩
      exact absurd hab adjPair_singleton
    | cons b rest =>
      show (v, w) ∈ rideFold (a :: b :: rest) g x ↔ _
      rw [rideFold]
      rw [ih]
      have hspec : RideEdgeSpec (a :: b :: rest) x v w ↔
          (x = a.id ∧ v = b.id ∧ ∃ da db, a.distance_from_start = some da ∧
            b.distance_from_start = some db ∧ w = db - da) ∨
          RideEdgeSpec (b :: rest) x v w := by
        unfold RideEdgeSpec
        constructor
        · rintro ⟨a', b', hab, hx, hv, da, db, hda, hdb, hw⟩
          rcases adjPair_cons_cons.mp hab with ⟨rfl, rfl⟩ | htail
          · exact Or.inl ⟨hx, hv, da, db, hda, hdb, hw⟩
          · exact Or.inr ⟨a', b', htail, hx, hv, da, db, hda, hdb, hw⟩
        · rintro (⟨hx, hv, da, db, hda, hdb, hw⟩ | ⟨a', b', htail, hx, hv, da, db, hda, hdb, hw⟩)
          · exact ⟨a, b, AdjPair.head rest, hx, hv, da, db, hda, hdb, hw⟩
          · exact ⟨a', b', AdjPair.tail a htail, hx, hv, da, db, hda, hdb, hw⟩
      rw [hspec]
      cases hda : a.distance_from_start with
      | none =>
        simp only [hda]
        constructor
        · rintro (h | hs)
          · exact Or.inl h
          · exact Or.inr (Or.inr hs)
        · rintro (h | (⟨hx, hv, da', db', hda', hdb', hw'⟩ | hs))
          · exact Or.inl h
          · exact absurd hda' (by simp)
          · exact Or.inr hs
      | some da =>
        cases hdb : b.distance_from_start with
        | none =>
          simp only [hda, hdb]
          constructor
          · rintro (h | hs)
            · exact Or.inl h
            · exact Or.inr (Or.inr hs)
          · rintro (h | (⟨hx, hv, da', db', hda', hdb', hw'⟩ | hs))
            · exact Or.inl h
            · exact absurd hdb' (by simp)
            · exact Or.inr hs
        | some db =>
          simp only [hda, hdb]
          rw [mem_addEdge]
          constructor
          · rintro ((h | ⟨hx, hv, hw⟩) | hs)
            · exact Or.inl h
            · exact Or.inr (Or.inl ⟨hx, hv, da, db, rfl, rfl, hw⟩)
            · exact Or.inr (Or.inr hs)
          · rintro (h | (⟨hx, hv, da', db', hda', hdb', hw⟩ | hs))
            · exact Or.inl (Or.inl h)
            · obtain rfl := Option.some.inj hda'
              obtain rfl := Option.some.inj hdb'
              exact Or.inl (Or.inr ⟨hx, hv, hw⟩)
            · exact Or.inr hs

/-- Edges contributed by the ride pass. -/
def RidePassSpec (route_stops : List RouteStop) (x v : ℕ) (w : ℚ) : Prop :=
  ∃ d ∈ dirIds route_stops, RideEdgeSpec (sortedDir route_stops d) x v w

theorem mem_ridePass {route_stops : List RouteStop} {g : Graph} {x v : ℕ} {w : ℚ} :
    (v, w) ∈ ridePass route_stops g x ↔ (v, w) ∈ g x ∨ RidePassSpec route_stops x v w := by
  unfold ridePass RidePassSpec
  exact mem_graph_foldl _ (fun d x v w => RideEdgeSpec (sortedDir route_stops d) x v w)
    (fun g d x v w => mem_rideFold (sortedDir route_stops d) g x v w) _ g x v w

/-- The contribution of the nested transfer loops over two groups. -/
def TransferSpec (as bs : List RouteStop) (wt : ℚ) (x v : ℕ) (w : ℚ) : Prop :=
  ∃ a ∈ as, ∃ b ∈ bs, a.direction_id ≠ b.direction_id ∧ x = a.id ∧ v = b.id ∧ w = wt

theorem mem_addTransfers {as bs : List RouteStop} {wt : ℚ} {g : Graph} {x v : ℕ} {w : ℚ} :
    (v, w) ∈ addTransfers as bs wt g x ↔ (v, w) ∈ g x ∨ TransferSpec as bs wt x v w := by
  unfold addTransfers TransferSpec
  have hstep : ∀ (a : RouteStop) (g : Graph) (b : RouteStop) (x v : ℕ) (w : ℚ),
      ((v, w) ∈ (if a.direction_id ≠ b.direction_id then addEdge g a.id b.id wt else g) x ↔
        (v, w) ∈ g x ∨ (a.direction_id ≠ b.direction_id ∧ x = a.id ∧ v = b.id ∧ w = wt)) := by
    intro a g b x v w
    by_cases hd : a.direction_id ≠ b.direction_id
    · rw [if_pos hd, mem_addEdge]
      constructor
      · rintro (h | ⟨hx, hv, hw⟩)
        · exact Or.inl h
        · exact Or.inr ⟨hd, hx, hv, hw⟩
      · rintro (h | ⟨_, hx, hv, hw⟩)
        · exact Or.inl h
        · exact Or.inr ⟨hx, hv, hw⟩
    · rw [if_neg hd]
      constructor
      · exact Or.inl
      · rintro (h | ⟨hd', _⟩)
        · exact h
        · exact absurd hd' hd
  have hinner : ∀ (a : RouteStop) (g : Graph) (x v : ℕ) (w : ℚ),
      ((v, w) ∈ (bs.foldl (fun g b =>
        if a.direction_id ≠ b.direction_id then addEdge g a.id b.id wt else g) g) x ↔
      (v, w) ∈ g x ∨ ∃ b ∈ bs, a.direction_id ≠ b.direction_id ∧ x = a.id ∧ v = b.id ∧ w = wt) :=
    fun a g x v w => mem_graph_foldl _
      (fun (b : RouteStop) (x v : ℕ) (w : ℚ) =>
        a.direction_id ≠ b.direction_id ∧ x = a.id ∧ v = b.id ∧ w = wt)
      (hstep a) bs g x v w
  exact mem_graph_foldl _
    (fun (a : RouteStop) (x v : ℕ) (w : ℚ) =>
      ∃ b ∈ bs, a.direction_id ≠ b.direction_id ∧ x = a.id ∧ v = b.id ∧ w = wt)
    (fun g a x v w => hinner a g x v w) as g x v w

/-- Edges contributed by the walking-transfer pass for one reported pair. -/
def WalkPairSpec (route_stops : List RouteStop) (p : ℕ × ℕ × ℚ) (x v : ℕ) (w : ℚ) : Prop :=
  TransferSpec (stopGroup route_stops p.1) (stopGroup route_stops p.2.1)
    (p.2.2 * 3 + 0.6) x v w

theorem mem_walkPass {route_stops : List RouteStop} {nearby_pairs : List (ℕ × ℕ × ℚ)}
    {g : Graph} {x v : ℕ} {w : ℚ} :
    (v, w) ∈ walkPass route_stops nearby_pairs g x ↔
      (v, w) ∈ g x ∨ ∃ p ∈ nearby_pairs, WalkPairSpec route_stops p x v w := by
  unfold walkPass WalkPairSpec
  exact mem_graph_foldl _
    (fun (p : ℕ × ℕ × ℚ) (x v : ℕ) (w : ℚ) =>
      TransferSpec (stopGroup route_stops p.1) (stopGroup route_stops p.2.1)
        (p.2.2 * 3 + 0.6) x v w)
    (fun g p x v w => mem_addTransfers) nearby_pairs g x v w

theorem mem_sameStopPass {route_stops : List RouteStop} {g : Graph} {x v : ℕ} {w : ℚ} :
    (v, w) ∈ sameStopPass route_stops g x ↔
      (v, w) ∈ g x ∨ ∃ sid ∈ stopIds route_stops,
        TransferSpec (stopGroup route_stops sid) (stopGroup route_stops sid) 0.6 x v w := by
  unfold sameStopPass
  exact mem_graph_foldl _
    (fun (sid : ℕ) (x v : ℕ) (w : ℚ) =>
      TransferSpec (stopGroup route_stops sid) (stopGroup route_stops sid) 0.6 x v w)
    (fun g sid x v w => mem_addTransfers) (stopIds route_stops) g x v w

theorem mem_graph0 {x v : ℕ} {w : ℚ} : ¬ (v, w) ∈ graph0 x := by
  unfold graph0
  simp

/-- Full characterization of the edges of the built graph: every edge is
a ride edge, a walking-transfer edge, or a same-stop transfer edge. -/
theorem mem_buildGraphFromSnapshot {route_stops : List RouteStop}
    {nearby_pairs : List (ℕ × ℕ × ℚ)} {x v : ℕ} {w : ℚ} :
    (v, w) ∈ buildGraphFromSnapshot route_stops nearby_pairs x ↔
      RidePassSpec route_stops x v w ∨
      (∃ p ∈ nearby_pairs, WalkPairSpec route_stops p x v w) ∨
      (∃ sid ∈ stopIds route_stops,
        TransferSpec (stopGroup route_stops sid) (stopGroup route_stops sid) 0.6 x v w) := by
  unfold buildGraphFromSnapshot
  rw [mem_sameStopPass, mem_walkPass, mem_ridePass]
  constructor
  · rintro (((h0 | h1) | h2) | h3)
    · exact absurd h0 mem_graph0
    · exact Or.inl h1
    · exact Or.inr (Or.inl h2)
    · exact Or.inr (Or.inr h3)
  · rintro (h1 | h2 | h3)
    · exact Or.inl (Or.inl (Or.inr h1))
    · exact Or.inl (Or.inr h2)
    · exact Or.inr h3

theorem pairwise_adjPair {R : RouteStop → RouteStop → Prop} {a b : RouteStop} :
    ∀ {l : List RouteStop}, AdjPair a b l → l.Pairwise R → R a b := by
  intro l hadj
  induction hadj with
  | head rest =>
    intro hp
    exact (List.pairwise_cons.mp hp).1 b (List.mem_cons_self _ _)
  | tail x h ih =>
    intro hp
    exact ih (List.pairwise_cons.mp hp).2

theorem mem_sortedDir {route_stops : List RouteStop} {d : ℕ} {a : RouteStop}
    (h : a ∈ sortedDir route_stops d) : a ∈ route_stops ∧ a.direction_id = d := by
  unfold sortedDir at h
  have hmem : a ∈ dirGroup route_stops d :=
    (List.mergeSort_perm (dirGroup route_stops d) _).mem_iff.mp h
  unfold dirGroup at hmem
  have := List.mem_filter.mp hmem
  exact ⟨this.1, of_decide_eq_true this.2⟩

theorem sortedDir_sorted (route_stops : List RouteStop) (d : ℕ) :
    (sortedDir route_stops d).Pairwise (fun a b => decide (a.order ≤ b.order) = true) := by
  unfold sortedDir
  refine List.sorted_mergeSort ?_ ?_ (dirGroup route_stops d)
  · intro a b c hab hbc
    exact decide_eq_true (le_trans (of_decide_eq_true hab) (of_decide_eq_true hbc))
  · intro a b
    rcases le_total a.order b.order with h | h
    · exact Or.inl (decide_eq_true h) |> Bool.or_eq_true_iff.mpr
    · exact Or.inr (decide_eq_true h) |> Bool.or_eq_true_iff.mpr

/-- Monotone cumulative distances: within one direction, stop-assignments
later in ordinal order never carry a smaller known distance-from-start. -/
def MonotoneDfs (route_stops : List RouteStop) : Prop :=
  ∀ a ∈ route_stops, ∀ b ∈ route_stops,
    a.direction_id = b.direction_id → a.order ≤ b.order →
    ∀ da db, a.distance_from_start = some da → b.distance_from_start = some db →
      da ≤ db

theorem mem_pairsWithin {stops : List Stop} {stDist : Stop → Stop → ℚ} {maxM : ℚ}
    {x y : ℕ} {dk : ℚ} :
    (x, y, dk) ∈ pairsWithin stops stDist maxM ↔
      ∃ a ∈ stops, ∃ b ∈ stops, a.id ≠ b.id ∧ stDist a b ≤ maxM ∧
        x = a.id ∧ y = b.id ∧ dk = stDist a b / 1000 := by
  unfold pairsWithin
  simp only [List.mem_flatMap, List.mem_map, List.mem_filter, decide_eq_true_eq]
  constructor
  · rintro ⟨a, ha, b, ⟨hb, hne, hle⟩, heq⟩
    have h1 := congrArg Prod.fst heq
    have h2 := congrArg (fun q : ℕ × ℕ × ℚ => q.2.1) heq
    have h3 := congrArg (fun q : ℕ × ℕ × ℚ => q.2.2) heq
    exact ⟨a, ha, b, hb, hne, hle, h1.symm, h2.symm, h3.symm⟩
  · rintro ⟨a, ha, b, hb, hne, hle, rfl, rfl, rfl⟩
    exact ⟨a, ha, b, ⟨hb, hne, hle⟩, rfl⟩

/-- C2: every edge weight of the built graph is non-negative provided the
known cumulative distances are monotone along each direction and the
reported pair distances are non-negative; and the modelled spatial lookup
only ever reports non-negative distances, so walking-transfer and
same-stop weights are non-negative for every real input. -/
theorem build_graph_weights_nonneg (route_stops : List RouteStop)
    (nearby_pairs : List (ℕ × ℕ × ℚ))
    (hmono : MonotoneDfs route_stops)
    (hpairs : ∀ p ∈ nearby_pairs, 0 ≤ p.2.2) :
    (∀ u, ∀ p ∈ buildGraphFromSnapshot route_stops nearby_pairs u, 0 ≤ p.2) ∧
    (∀ (stops : List Stop) (stDist : Stop → Stop → ℚ) (maxM : ℚ),
      (∀ a b, 0 ≤ stDist a b) →
      ∀ p ∈ pairsWithin stops stDist maxM, 0 ≤ p.2.2) := by
  constructor
  · intro u p hp
    obtain ⟨v, w⟩ := p
    rcases mem_buildGraphFromSnapshot.mp hp with hride | hwalk | hsame
    · obtain ⟨d, hd, a, b, hadj, hx, hv, da, db, hda, hdb, rfl⟩ := hride
      have hasd := mem_sortedDir hadj.mem_left
      have hbsd := mem_sortedDir hadj.mem_right
      have hord : a.order ≤ b.order :=
        of_decide_eq_true (pairwise_adjPair hadj (sortedDir_sorted route_stops d))
      have hle : da ≤ db :=
        hmono a hasd.1 b hbsd.1 (hasd.2.trans hbsd.2.symm) hord da db hda hdb
      simpa using sub_nonneg.mpr hle
    · obtain ⟨pr, hpr, a, ha, b, hb, hdne, hx, hv, rfl⟩ := hwalk
      have h0 := hpairs pr hpr
      simp only
      linarith
    · obtain ⟨sid, hsid, a, ha, b, hb, hdne, hx, hv, rfl⟩ := hsame
      norm_num
  · intro stops stDist maxM hnn p hp
    obtain ⟨x, y, dk⟩ := p
    obtain ⟨a, ha, b, hb, hne, hle, rfl, rfl, rfl⟩ := mem_pairsWithin.mp hp
    have := hnn a b
    positivity

/-- Concrete two-stop snapshot used by the graph-builder witnesses. -/
def wStopA : Stop := ⟨10, "A", 0, 0⟩

/-- Second stop of the concrete snapshot, 200 m east of the first. -/
def wStopB : Stop := ⟨11, "B", 0, 1/100⟩

/-- Direction record of the concrete snapshot's first line. -/
def wDir1 : Direction := ⟨"up", none, ⟨"L1", none, some 10⟩⟩

/-- Direction record of the concrete snapshot's second line. -/
def wDir2 : Direction := ⟨"down", none, ⟨"L2", none, none⟩⟩

/-- First stop-assignment: line 1 at stop 10, order 0, km 0. -/
def wRs1 : RouteStop := ⟨1, 1, 10, 0, some 0, wDir1, wStopA⟩

/-- Second stop-assignment: line 1 at stop 11, order 1, km 3. -/
def wRs2 : RouteStop := ⟨2, 1, 11, 1, some 3, wDir1, wStopB⟩

/-- Third stop-assignment: line 2 at stop 11, unknown distance. -/
def wRs3 : RouteStop := ⟨3, 2, 11, 0, none, wDir2, wStopB⟩

/-- Fourth stop-assignment: line 2 at stop 10, order 1, km 5 (its
predecessor on line 2 has an unknown distance). -/
def wRs4 : RouteStop := ⟨4, 2, 10, 1, some 5, wDir2, wStopA⟩

/-- Concrete snapshot node list. -/
def wSnapshotRs : List RouteStop := [wRs1, wRs2, wRs3, wRs4]

/-- Concrete within-300m pair list (both orientations, 200 m apart). -/
def wPairs : List (ℕ × ℕ × ℚ) := [(10, 11, 1/5), (11, 10, 1/5)]

/-- Witness for C2: on the concrete snapshot the hypotheses hold and all
edge weights of the built graph are non-negative. -/
theorem build_graph_weights_nonneg_witness :
    MonotoneDfs wSnapshotRs ∧ (∀ p ∈ wPairs, 0 ≤ p.2.2) ∧
    (∀ u, ∀ p ∈ buildGraphFromSnapshot wSnapshotRs wPairs u, 0 ≤ p.2) := by
  have hmono : MonotoneDfs wSnapshotRs := by
    intro a ha b hb hdir hord da db hda hdb
    simp only [wSnapshotRs, List.mem_cons, List.not_mem_nil, or_false] at ha hb
    rcases ha with rfl | rfl | rfl | rfl <;> rcases hb with rfl | rfl | rfl | rfl <;>
      simp_all [wRs1, wRs2, wRs3, wRs4] <;> linarith
  have hpairs : ∀ p ∈ wPairs, 0 ≤ p.2.2 := by
    intro p hp
    simp only [wPairs, List.mem_cons, List.not_mem_nil, or_false] at hp
    rcases hp with rfl | rfl <;> norm_num
  exact ⟨hmono, hpairs,
    (build_graph_weights_nonneg wSnapshotRs wPairs hmono hpairs).1⟩

theorem adjPair_unique {a b b' : RouteStop} :
    ∀ {l : List RouteStop}, AdjPair a b l → l.Nodup → AdjPair a b' l → b = b' := by
  intro l h1
  induction h1 with
  | head rest =>
    intro hnd h2
    cases h2 with
    | head _ => rfl
    | tail _ h' =>
      exact absurd h'.mem_left (List.nodup_cons.mp hnd).1
  | tail x h ih =>
    intro hnd h2
    cases h2 with
    | head _ =>
      exact absurd h.mem_left (List.nodup_cons.mp hnd).1
    | tail _ h' =>
      exact ih (List.nodup_cons.mp hnd).2 h'

theorem sortedDir_nodup {route_stops : List RouteStop} {d : ℕ}
    (hnodup : (route_stops.map RouteStop.id).Nodup) :
    (sortedDir route_stops d).Nodup := by
  have h1 : route_stops.Nodup := hnodup.of_map
  have h2 : (dirGroup route_stops d).Nodup := h1.filter _
  unfold sortedDir
  exact (List.mergeSort_perm (dirGroup route_stops d) _).nodup_iff.mpr h2

/-- C3: for stop-assignments a and b consecutive after sorting one
direction's assignments by ordinal position, the ride pass has an edge
a.id to b.id of weight w exactly when both cumulative distances are known
and w is their difference; with either distance unknown the edge is
silently omitted, and graph construction is a total function that cannot
raise. -/
theorem ride_edge_iff (route_stops : List RouteStop) (d : ℕ) (a b : RouteStop)
    (hnodup : (route_stops.map RouteStop.id).Nodup)
    (hadj : AdjPair a b (sortedDir route_stops d)) (w : ℚ) :
    (b.id, w) ∈ ridePass route_stops graph0 a.id ↔
      ∃ da db, a.distance_from_start = some da ∧
        b.distance_from_start = some db ∧ w = db - da := by
  have hmema := mem_sortedDir hadj.mem_left
  have hmemb := mem_sortedDir hadj.mem_right
  constructor
  · intro h
    rcases mem_ridePass.mp h with h0 | hspec
    · exact absurd h0 mem_graph0
    · obtain ⟨d', hd', a', b', hadj', hx, hv, da, db, hda, hdb, rfl⟩ := hspec
      have hmema' := mem_sortedDir hadj'.mem_left
      have hmemb' := mem_sortedDir hadj'.mem_right
      have haa : a' = a :=
        List.inj_on_of_nodup_map hnodup hmema'.1 hmema.1 (hx.symm)
      subst haa
      have hdd : d' = d := hmema'.2.symm.trans hmema.2
      subst hdd
      have hbb : b' = b := adjPair_unique hadj' (sortedDir_nodup hnodup) hadj
      subst hbb
      exact ⟨da, db, hda, hdb, rfl⟩
  · rintro ⟨da, db, hda, hdb, rfl⟩
    apply mem_ridePass.mpr
    right
    refine ⟨d, ?_, a, b, hadj, rfl, rfl, da, db, hda, hdb, rfl⟩
    unfold dirIds
    rw [List.mem_dedup]
    rw [← hmema.2]
    exact List.mem_map_of_mem _ hmema.1

theorem wSorted1 : sortedDir wSnapshotRs 1 = [wRs1, wRs2] := by
  have hfil : dirGroup wSnapshotRs 1 = [wRs1, wRs2] := by
    unfold dirGroup wSnapshotRs wRs1 wRs2 wRs3 wRs4
    rfl
  have hsorted : ([wRs1, wRs2]).Pairwise (fun a b => decide (a.order ≤ b.order) = true) := by
    simp [wRs1, wRs2]
  unfold sortedDir
  rw [hfil]
  exact List.mergeSort_of_sorted hsorted

theorem wSorted2 : sortedDir wSnapshotRs 2 = [wRs3, wRs4] := by
  have hfil : dirGroup wSnapshotRs 2 = [wRs3, wRs4] := by
    unfold dirGroup wSnapshotRs wRs1 wRs2 wRs3 wRs4
    rfl
  have hsorted : ([wRs3, wRs4]).Pairwise (fun a b => decide (a.order ≤ b.order) = true) := by
    simp [wRs3, wRs4]
  unfold sortedDir
  rw [hfil]
  exact List.mergeSort_of_sorted hsorted

/-- Witness for C3: on the concrete snapshot, the known-distance pair has
exactly the difference-weight edge, and the pair whose first assignment
has an unknown distance produces no edge at all. -/
theorem ride_edge_iff_witness :
    (wSnapshotRs.map RouteStop.id).Nodup ∧
    AdjPair wRs1 wRs2 (sortedDir wSnapshotRs 1) ∧
    AdjPair wRs3 wRs4 (sortedDir wSnapshotRs 2) ∧
    ((wRs2.id, (3 : ℚ)) ∈ ridePass wSnapshotRs graph0 wRs1.id ↔
      ∃ da db, wRs1.distance_from_start = some da ∧
        wRs2.distance_from_start = some db ∧ (3 : ℚ) = db - da) ∧
    (∀ w, ¬ (wRs4.id, w) ∈ ridePass wSnapshotRs graph0 wRs3.id) := by
  have hnodup : (wSnapshotRs.map RouteStop.id).Nodup := by
    unfold wSnapshotRs wRs1 wRs2 wRs3 wRs4
    decide
  have hadj1 : AdjPair wRs1 wRs2 (sortedDir wSnapshotRs 1) := by
    rw [wSorted1]
    exact AdjPair.head []
  have hadj2 : AdjPair wRs3 wRs4 (sortedDir wSnapshotRs 2) := by
    rw [wSorted2]
    exact AdjPair.head []
  refine ⟨hnodup, hadj1, hadj2, ride_edge_iff wSnapshotRs 1 wRs1 wRs2 hnodup hadj1 3, ?_⟩
  intro w hw
  rcases (ride_edge_iff wSnapshotRs 2 wRs3 wRs4 hnodup hadj2 w).mp hw with
    ⟨da, db, hda, hdb, _⟩
  exact absurd hda (by simp [wRs3])

/-- Sufficient condition for a walking-transfer edge: a reported stop
pair plus one assignment on each stop with differing directions. -/
theorem walk_edge_mem {route_stops : List RouteStop} {nearby_pairs : List (ℕ × ℕ × ℚ)}
    {rs_a rs_b : RouteStop} {x y : ℕ} {dk : ℚ}
    (hp : (x, y, dk) ∈ nearby_pairs)
    (ha : rs_a ∈ route_stops) (hb : rs_b ∈ route_stops)
    (hax : rs_a.stop_id = x) (hby : rs_b.stop_id = y)
    (hneq : rs_a.direction_id ≠ rs_b.direction_id) :
    (rs_b.id, dk * 3 + 0.6) ∈ buildGraphFromSnapshot route_stops nearby_pairs rs_a.id := by
  apply mem_buildGraphFromSnapshot.mpr
  right
  left
  refine ⟨(x, y, dk), hp, ?_⟩
  unfold WalkPairSpec TransferSpec
  refine ⟨rs_a, ?_, rs_b, ?_, hneq, rfl, rfl, rfl⟩
  · unfold stopGroup
    exact List.mem_filter.mpr ⟨ha, decide_eq_true hax⟩
  · unfold stopGroup
    exact List.mem_filter.mpr ⟨hb, decide_eq_true hby⟩

/-- C8: the modelled pairwise spatial query returns both orientations of
every qualifying stop pair (the SQL cross join with symmetric ST_DWithin
and ST_Distance), and consequently every walking-transfer edge the
builder adds has its reverse edge present with the same weight. -/
theorem walk_transfer_symm (route_stops : List RouteStop) (stops : List Stop)
    (stDist : Stop → Stop → ℚ)
    (hsym : ∀ a b, stDist a b = stDist b a) :
    (∀ x y dk, (x, y, dk) ∈ pairsWithin stops stDist 300 →
      (y, x, dk) ∈ pairsWithin stops stDist 300) ∧
    (∀ rs_a rs_b x y dk,
      (x, y, dk) ∈ pairsWithin stops stDist 300 →
      rs_a ∈ route_stops → rs_b ∈ route_stops →
      rs_a.stop_id = x → rs_b.stop_id = y →
      rs_a.direction_id ≠ rs_b.direction_id →
      (rs_b.id, dk * 3 + 0.6) ∈
        buildGraphFromSnapshot route_stops (pairsWithin stops stDist 300) rs_a.id ∧
      (rs_a.id, dk * 3 + 0.6) ∈
        buildGraphFromSnapshot route_stops (pairsWithin stops stDist 300) rs_b.id) := by
  have hswap : ∀ x y dk, (x, y, dk) ∈ pairsWithin stops stDist 300 →
      (y, x, dk) ∈ pairsWithin stops stDist 300 := by
    intro x y dk h
    obtain ⟨a, ha, b, hb, hne, hle, rfl, rfl, rfl⟩ := mem_pairsWithin.mp h
    apply mem_pairsWithin.mpr
    refine ⟨b, hb, a, ha, fun hc => hne hc.symm, ?_, rfl, rfl, ?_⟩
    · rw [hsym b a]
      exact hle
    · rw [hsym b a]
  refine ⟨hswap, ?_⟩
  intro rs_a rs_b x y dk hp ha hb hax hby hneq
  exact ⟨walk_edge_mem hp ha hb hax hby hneq,
    walk_edge_mem (hswap x y dk hp) hb ha hby hax (fun hc => hneq hc.symm)⟩

/-- Symmetric concrete stand-in for the PostGIS geography distance: 0 m
between a stop and itself, 200 m between distinct stops. -/
def wStDist (a b : Stop) : ℚ := if a.id = b.id then 0 else 200

/-- Witness for C8: on the concrete snapshot the symmetric distance
yields the pair (10, 11) and both walking-transfer directions between the
assignments of lines 1 and 2 are edges of the built graph. -/
theorem walk_transfer_symm_witness :
    (∀ a b, wStDist a b = wStDist b a) ∧
    ((10, 11, (1/5 : ℚ)) ∈ pairsWithin [wStopA, wStopB] wStDist 300) ∧
    ((wRs3.id, (1/5 : ℚ) * 3 + 0.6) ∈
      buildGraphFromSnapshot wSnapshotRs (pairsWithin [wStopA, wStopB] wStDist 300)
        wRs1.id ∧
     (wRs1.id, (1/5 : ℚ) * 3 + 0.6) ∈
      buildGraphFromSnapshot wSnapshotRs (pairsWithin [wStopA, wStopB] wStDist 300)
        wRs3.id) := by
  have hsym : ∀ a b, wStDist a b = wStDist b a := by
    intro a b
    unfold wStDist
    by_cases h : a.id = b.id
    · rw [if_pos h, if_pos h.symm]
    · rw [if_neg h, if_neg (fun hc => h hc.symm)]
  have hp : (10, 11, (1/5 : ℚ)) ∈ pairsWithin [wStopA, wStopB] wStDist 300 := by
    with_unfolding_all decide
  refine ⟨hsym, hp, (walk_transfer_symm wSnapshotRs [wStopA, wStopB] wStDist hsym).2
    wRs1 wRs3 10 11 (1/5) hp ?_ ?_ rfl rfl ?_⟩
  · unfold wSnapshotRs
    exact List.mem_cons_self _ _
  · unfold wSnapshotRs
    exact List.mem_cons_of_mem _ (List.mem_cons_of_mem _ (List.mem_cons_self _ _))
  · decide

/-- First-call snapshot: the two line-1 assignments, no nearby pairs. -/
def wDbOne : DBSnapshot := ⟨[wRs1, wRs2], []⟩

/-- Changed snapshot for the second call: all data removed. -/
def wDbEmpty : DBSnapshot := ⟨[], []⟩

/-- Counterexample to C4: after one build, a call with a changed (now
empty) snapshot still returns the first snapshot's graph and node list —
the cache is reused silently, not rebuilt from the snapshot read at that
call. -/
theorem build_graph_stale_counterexample :
    (build_graph (build_graph none wDbOne).2 wDbEmpty).1.graph 1 = [(2, 3)] ∧
    (freshTransitData wDbEmpty).graph 1 = [] ∧
    (build_graph (build_graph none wDbOne).2 wDbEmpty).1.graph 1 ≠
      (freshTransitData wDbEmpty).graph 1 ∧
    (build_graph (build_graph none wDbOne).2 wDbEmpty).1.route_stops ≠
      (freshTransitData wDbEmpty).route_stops := by
  refine ⟨?_, ?_, ?_, ?_⟩
  · with_unfolding_all rfl
  · with_unfolding_all rfl
  · with_unfolding_all decide
  · with_unfolding_all decide

/-- C4 amended: build_graph builds from the snapshot only when the cache
is empty; whenever a cached triple exists it is returned unchanged,
regardless of the snapshot passed to the call. -/
theorem build_graph_cache_semantics :
    (∀ db, (build_graph none db).1 = freshTransitData db) ∧
    (∀ td db, (build_graph (some td) db).1 = td) :=
  ⟨fun _ => rfl, fun _ _ => rfl⟩

/-! ## Trip assembler properties -/

/-- Direction changes remaining along a path, relative to the direction
of the last node already grouped. -/
def dirChanges (rs_map : ℕ → RouteStop) : ℕ → List ℕ → ℕ
  | _, [] => 0
  | d, x :: xs =>
    (if (rs_map x).direction_id ≠ d then 1 else 0) +
      dirChanges rs_map (rs_map x).direction_id xs

/-- Positions at which consecutive path nodes differ in direction id. -/
def countDirChanges (rs_map : ℕ → RouteStop) (path_ids : List ℕ) : ℕ :=
  (path_ids.zip path_ids.tail).countP
    (fun p => decide ((rs_map p.1).direction_id ≠ (rs_map p.2).direction_id))

theorem dirChanges_cons (rs_map : ℕ → RouteStop) (d x : ℕ) (xs : List ℕ) :
    dirChanges rs_map d (x :: xs) =
      (if (rs_map x).direction_id ≠ d then 1 else 0) +
        dirChanges rs_map (rs_map x).direction_id xs := rfl

theorem segLoop_length (rs_map : ℕ → RouteStop) :
    ∀ (rest : List ℕ) (segments : List (List RouteStop)) (current : List RouteStop)
      (last : RouteStop), current.getLast? = some last →
    (segLoop rs_map rest segments current).length =
      segments.length + 1 + dirChanges rs_map last.direction_id rest := by
  intro rest
  induction rest with
  | nil =>
    intro segments current last hlast
    unfold segLoop dirChanges
    simp
  | cons x xs ih =>
    intro segments current last hlast
    rw [segLoop, hlast]
    dsimp only
    by_cases hd : last.direction_id = (rs_map x).direction_id
    · rw [if_pos hd]
      rw [ih segments (current ++ [rs_map x]) (rs_map x) (by simp)]
      rw [dirChanges_cons]
      rw [if_neg (fun hne => hne hd.symm)]
      omega
    · rw [if_neg hd]
      rw [ih (segments ++ [current]) [rs_map x] (rs_map x) rfl]
      rw [dirChanges_cons]
      rw [if_pos (fun heq => hd heq.symm)]
      simp only [List.length_append, List.length_singleton]
      omega

theorem dirChanges_eq_count (rs_map : ℕ → RouteStop) :
    ∀ (xs : List ℕ) (x : ℕ),
    dirChanges rs_map (rs_map x).direction_id xs = countDirChanges rs_map (x :: xs) := by
  intro xs
  induction xs with
  | nil => intro x; rfl
  | cons y ys ih =>
    intro x
    rw [dirChanges_cons]
    unfold countDirChanges
    simp only [List.tail_cons, List.zip_cons_cons, List.countP_cons]
    have hih := ih y
    unfold countDirChanges at hih
    simp only [List.tail_cons] at hih
    rw [hih]
    by_cases hd : (rs_map y).direction_id = (rs_map x).direction_id
    · rw [if_neg (fun hne => hne hd)]
      have hdec : decide ((rs_map x).direction_id ≠ (rs_map y).direction_id) = false := by
        simp [hd]
      simp only [hdec]
      simp
    · rw [if_pos hd]
      have hdec : decide ((rs_map x).direction_id ≠ (rs_map y).direction_id) = true := by
        simp
        exact fun h => hd h.symm
      simp only [hdec]
      simp
      omega

/-- C5: for every non-empty reconstructed path the segmentation produces
one segment per maximal run of equal direction ids, so the segment count
is the number of adjacent direction changes plus one; a one-node path
yields exactly one segment. -/
theorem segments_count (rs_map : ℕ → RouteStop) (path_ids : List ℕ)
    (hne : path_ids ≠ []) :
    (segmentsOf rs_map path_ids).length = countDirChanges rs_map path_ids + 1 ∧
    (∀ x, path_ids = [x] → (segmentsOf rs_map path_ids).length = 1) := by
  constructor
  · cases path_ids with
    | nil => exact absurd rfl hne
    | cons x xs =>
      unfold segmentsOf
      rw [segLoop]
      show (segLoop rs_map xs [] ([] ++ [rs_map x])).length = _
      rw [segLoop_length rs_map xs [] ([] ++ [rs_map x]) (rs_map x) (by simp)]
      rw [dirChanges_eq_count]
      simp
      omega
  · intro x hx
    subst hx
    rfl

/-- Node index for the segmentation witness: nodes 1 and 2 ride direction
7, nodes 3 and 4 ride direction 9. -/
def wSegMap : ℕ → RouteStop :=
  fun i => if i ≤ 2 then { rsDefault with id := i, direction_id := 7 }
           else { rsDefault with id := i, direction_id := 9 }

/-- Witness for C5: a four-node path with one direction change groups
into two segments, one more than the change count. -/
theorem segments_count_witness :
    ([1, 2, 3, 4] : List ℕ) ≠ [] ∧
    countDirChanges wSegMap [1, 2, 3, 4] = 1 ∧
    (segmentsOf wSegMap [1, 2, 3, 4]).length = countDirChanges wSegMap [1, 2, 3, 4] + 1 := by
  refine ⟨by simp, by decide, (segments_count wSegMap [1, 2, 3, 4] (by simp)).1⟩

/-- Direction record of the single-segment scenario, price 10. -/
def c6Dir : Direction := ⟨"up", none, ⟨"R", none, some 10⟩⟩

/-- Stop-assignments of the single-segment scenario: one direction, three
stops at cumulative kilometers 0, 2 and 5. -/
def c6Rs (i : ℕ) (dfs : ℚ) : RouteStop :=
  ⟨i, 5, 20 + i, (i : ℤ), some dfs, c6Dir, ⟨20 + i, "", 0, 0⟩⟩

/-- Node index of the single-segment scenario. -/
def c6Map : ℕ → RouteStop :=
  fun i => if i = 1 then c6Rs 1 0 else if i = 2 then c6Rs 2 2 else c6Rs 3 5

/-- C6: the three-stop single-direction path with distances 0, 2, 5 km
and ticket price 10 yields exactly one segment of distance 5 km, duration
5 * 2.0 + 3 * 0.3 = 10.9 minutes and cost 10. -/
theorem single_segment_scenario :
    segmentsOf c6Map [1, 2, 3] = [[c6Rs 1 0, c6Rs 2 2, c6Rs 3 5]] ∧
    segStats [c6Rs 1 0, c6Rs 2 2, c6Rs 3 5] = Except.ok ⟨5, 109/10, 10⟩ ∧
    assembleSegments [[c6Rs 1 0, c6Rs 2 2, c6Rs 3 5]] =
      Except.ok ⟨((109/10 : ℚ) : ℝ), ((5 : ℚ) : ℝ), 10, [none]⟩ := by
  have hst : segStats [c6Rs 1 0, c6Rs 2 2, c6Rs 3 5] = Except.ok ⟨5, 109/10, 10⟩ := by
    with_unfolding_all rfl
  refine ⟨by with_unfolding_all rfl, hst, ?_⟩
  show assembleLoop [[c6Rs 1 0, c6Rs 2 2, c6Rs 3 5]] none 0 0 0 [] = _
  rw [assembleLoop.eq_def]
  dsimp only
  rw [hst]
  dsimp only
  have hlast : [c6Rs 1 0, c6Rs 2 2, c6Rs 3 5].getLast? = some (c6Rs 3 5) := rfl
  rw [hlast]
  dsimp only
  rw [assembleLoop.eq_def]
  dsimp only
  simp

theorem haversine_self (lat lng : ℚ) : haversine lat lng lat lng = 0 := by
  unfold haversine
  simp

theorem pyRound_zero (n : ℕ) : pyRound 0 n = 0 := by
  unfold pyRound
  simp

/-- C7: when the last stop of one segment is the identical physical stop
as the first stop of the next (same id and coordinates), the computed
transfer has walk distance 0, walk duration 0 and is_same_stop true, and
it contributes 0 to the trip's total duration and total distance. -/
theorem same_stop_transfer (seg1 seg2 : List RouteStop) (a b : RouteStop)
    (st1 st2 : SegStats)
    (h1 : segStats seg1 = Except.ok st1) (h2 : segStats seg2 = Except.ok st2)
    (hlast1 : seg1.getLast? = some a) (hhead2 : seg2.head? = some b)
    (hid : a.stop.id = b.stop.id) (hlat : a.stop.lat = b.stop.lat)
    (hlng : a.stop.lng = b.stop.lng) :
    assembleSegments [seg1, seg2] =
      Except.ok ⟨((st1.duration + st2.duration : ℚ) : ℝ),
        ((st1.dist + st2.dist : ℚ) : ℝ), st1.cost + st2.cost,
        [none, some ⟨0, 0, true⟩]⟩ := by
  have hlast2 : ∃ l2, seg2.getLast? = some l2 := by
    cases hl : seg2.getLast? with
    | some l2 => exact ⟨l2, rfl⟩
    | none =>
      unfold segStats at h2
      rw [hl] at h2
      cases hh : seg2.head? <;> rw [hh] at h2 <;> exact Except.noConfusion h2
  obtain ⟨l2, hl2⟩ := hlast2
  show assembleLoop [seg1, seg2] none 0 0 0 [] = _
  rw [assembleLoop.eq_def]
  dsimp only
  rw [h1, hlast1]
  dsimp only
  rw [assembleLoop.eq_def]
  dsimp only
  rw [h2, hhead2, hl2]
  dsimp only
  have hzero : haversine a.stop.lat a.stop.lng b.stop.lat b.stop.lng = 0 := by
    rw [hlat, hlng]
    exact haversine_self b.stop.lat b.stop.lng
  rw [hzero]
  rw [assembleLoop.eq_def]
  dsimp only
  have hz1 : pyRound (0 * 10) 1 = 0 := by
    rw [zero_mul]
    exact pyRound_zero 1
  have hz3 : pyRound (0 : ℝ) 3 = 0 := pyRound_zero 3
  rw [hz1, hz3]
  simp only [Except.ok.injEq, TripTotals.mk.injEq, List.nil_append, List.append_assoc,
    List.singleton_append, zero_add, add_zero]
  refine ⟨?_, ?_, ?_, ?_⟩
  · push_cast
    ring
  · push_cast
    ring
  · ring
  · simp [hid]

/-- Line-2 assignment at the same physical stop as wRs2, with a known
distance, used for the same-stop transfer witness. -/
def c7Rs : RouteStop := ⟨9, 2, 11, 0, some 4, wDir2, wStopB⟩

/-- Witness for C7: a two-segment trip transferring at the identical
physical stop gets the (0, 0, true) transfer descriptor and totals equal
to the plain sum of the segment stats. -/
theorem same_stop_transfer_witness :
    segStats [wRs2] = Except.ok ⟨0, 3/10, 10⟩ ∧
    segStats [c7Rs] = Except.ok ⟨0, 3/10, 0⟩ ∧
    assembleSegments [[wRs2], [c7Rs]] =
      Except.ok ⟨(3/5 : ℝ), 0, 10, [none, some ⟨0, 0, true⟩]⟩ := by
  have h1 : segStats [wRs2] = Except.ok ⟨0, 3/10, 10⟩ := by with_unfolding_all rfl
  have h2 : segStats [c7Rs] = Except.ok ⟨0, 3/10, 0⟩ := by with_unfolding_all rfl
  refine ⟨h1, h2, ?_⟩
  have := same_stop_transfer [wRs2] [c7Rs] wRs2 c7Rs ⟨0, 3/10, 10⟩ ⟨0, 3/10, 0⟩
    h1 h2 rfl rfl rfl rfl rfl
  rw [this]
  norm_num [TripTotals.mk.injEq]

/-! ## Endpoint guard properties -/

/-- C9: for every request whose great-circle origin-destination distance
exceeds 200 km, find_route signals the 400 too-far error; the result is
the same for every spatial-lookup oracle, every transit graph and every
fuel, so neither the nearby-stop lookup nor the graph search is ever
consulted. -/
theorem find_route_too_far (nearby : ℚ → ℚ → ℚ → List (Stop × ℚ))
    (transit : TransitData) (fuel : ℕ) (payload : RouteRequest)
    (hfar : 200 < haversine payload.from_location.lat payload.from_location.lng
      payload.to_location.lat payload.to_location.lng) :
    find_route nearby transit fuel payload =
      Except.error (RouteError.http 400 "Distance too far for local transit search.") := by
  unfold find_route
  rw [if_pos hfar]

theorem haversine_antipodal : haversine 0 0 0 180 = 6371 * Real.pi := by
  unfold haversine radians
  have h0 : ((0 : ℚ) : ℝ) = 0 := by norm_num
  have h180 : ((180 : ℚ) : ℝ) = 180 := by norm_num
  rw [h0, h180]
  have hz : (0 : ℝ) * Real.pi / 180 = 0 := by ring
  have hp : (180 : ℝ) * Real.pi / 180 = Real.pi := by
    field_simp
  rw [hz, hp]
  simp only [sub_zero, sub_self, zero_div, Real.sin_zero, Real.cos_zero]
  rw [Real.sin_pi_div_two]
  norm_num
  ring

/-- Witness for C9: a request spanning half the globe (great-circle
distance 6371 * pi km > 200 km) is rejected with the 400 signal even
under a trivial spatial oracle and empty transit data. -/
theorem find_route_too_far_witness :
    200 < haversine 0 0 0 180 ∧
    find_route (fun _ _ _ => []) ⟨graph0, [], []⟩ 0 ⟨⟨0, 0⟩, ⟨0, 180⟩⟩ =
      Except.error (RouteError.http 400 "Distance too far for local transit search.") := by
  have hfar : 200 < haversine 0 0 0 180 := by
    rw [haversine_antipodal]
    nlinarith [Real.pi_gt_three]
  exact ⟨hfar, find_route_too_far (fun _ _ _ => []) ⟨graph0, [], []⟩ 0 ⟨⟨0, 0⟩, ⟨0, 180⟩⟩ hfar⟩

/-! ## Unknown-distance crash -/

/-- Same-stop transfer edges are added regardless of distance data: two
assignments at one stop with differing directions always get the 0.6
edge, so nodes without a cumulative distance stay reachable. -/
theorem same_stop_edge_mem {route_stops : List RouteStop}
    {nearby_pairs : List (ℕ × ℕ × ℚ)} {rs_a rs_b : RouteStop}
    (ha : rs_a ∈ route_stops) (hb : rs_b ∈ route_stops)
    (hstop : rs_a.stop_id = rs_b.stop_id)
    (hneq : rs_a.direction_id ≠ rs_b.direction_id) :
    (rs_b.id, (0.6 : ℚ)) ∈ buildGraphFromSnapshot route_stops nearby_pairs rs_a.id := by
  apply mem_buildGraphFromSnapshot.mpr
  right
  right
  refine ⟨rs_a.stop_id, ?_, ?_⟩
  · unfold stopIds
    rw [List.mem_dedup]
    exact List.mem_map_of_mem _ ha
  · unfold TransferSpec
    refine ⟨rs_a, ?_, rs_b, ?_, hneq, rfl, rfl, rfl⟩
    · unfold stopGroup
      exact List.mem_filter.mpr ⟨ha, decide_eq_true rfl⟩
    · unfold stopGroup
      exact List.mem_filter.mpr ⟨hb, decide_eq_true hstop.symm⟩

theorem segStats_error_of_none (seg : List RouteStop) (hne : seg ≠ [])
    (rs : RouteStop) (h : seg.head? = some rs ∨ seg.getLast? = some rs)
    (hnone : rs.distance_from_start = none) :
    segStats seg = Except.error RouteError.typeError := by
  obtain ⟨first, hf⟩ : ∃ f, seg.head? = some f := by
    cases seg with
    | nil => exact absurd rfl hne
    | cons a t => exact ⟨a, rfl⟩
  obtain ⟨last, hl⟩ : ∃ l, seg.getLast? = some l :=
    Option.isSome_iff_exists.mp (List.getLast?_isSome.mpr hne)
  unfold segStats
  rw [hf, hl]
  dsimp only
  rcases h with hh | hh
  · rw [hf] at hh
    obtain rfl := Option.some.inj hh
    rw [hnone]
    cases last.distance_from_start <;> rfl
  · rw [hl] at hh
    obtain rfl := Option.some.inj hh
    rw [hnone]

theorem segStats_ok_or_typeError (seg : List RouteStop) (hne : seg ≠ []) :
    (∃ st, segStats seg = Except.ok st) ∨
      segStats seg = Except.error RouteError.typeError := by
  obtain ⟨first, hf⟩ : ∃ f, seg.head? = some f := by
    cases seg with
    | nil => exact absurd rfl hne
    | cons a t => exact ⟨a, rfl⟩
  obtain ⟨last, hl⟩ : ∃ l, seg.getLast? = some l :=
    Option.isSome_iff_exists.mp (List.getLast?_isSome.mpr hne)
  unfold segStats
  rw [hf, hl]
  dsimp only
  cases last.distance_from_start with
  | none => right; rfl
  | some dl =>
    cases first.distance_from_start with
    | none => right; rfl
    | some df => exact Or.inl ⟨_, rfl⟩

theorem assembleLoop_crash :
    ∀ (segs : List (List RouteStop)), (∀ s ∈ segs, s ≠ []) →
    (∃ s ∈ segs, ∃ rs, (s.head? = some rs ∨ s.getLast? = some rs) ∧
      rs.distance_from_start = none) →
    ∀ (prevLast : Option Stop) (dur dist : ℝ) (cost : ℚ) (trs : List (Option Transfer)),
      assembleLoop segs prevLast dur dist cost trs = Except.error RouteError.typeError := by
  intro segs
  induction segs with
  | nil =>
    intro _ hex
    obtain ⟨s, hs, _⟩ := hex
    exact absurd hs (List.not_mem_nil s)
  | cons seg rest ih =>
    intro hne hex prevLast dur dist cost trs
    have hseg : seg ≠ [] := hne seg (List.mem_cons_self _ _)
    rw [assembleLoop.eq_def]
    dsimp only
    rcases segStats_ok_or_typeError seg hseg with ⟨st, hok⟩ | herr
    · rw [hok]
      dsimp only
      have hex' : ∃ s ∈ rest, ∃ rs, (s.head? = some rs ∨ s.getLast? = some rs) ∧
          rs.distance_from_start = none := by
        obtain ⟨s, hs, rs, hrs, hnone⟩ := hex
        rcases List.mem_cons.mp hs with rfl | hs'
        · rw [segStats_error_of_none s hseg rs hrs hnone] at hok
          exact Except.noConfusion hok
        · exact ⟨s, hs', rs, hrs, hnone⟩
      have hne' : ∀ s ∈ rest, s ≠ [] := fun s hs => hne s (List.mem_cons_of_mem _ hs)
      obtain ⟨lastSeg, hlast⟩ : ∃ l, seg.getLast? = some l :=
        Option.isSome_iff_exists.mp (List.getLast?_isSome.mpr hseg)
      obtain ⟨headSeg, hhead⟩ : ∃ f, seg.head? = some f := by
        cases seg with
        | nil => exact absurd rfl hseg
        | cons a t => exact ⟨a, rfl⟩
      cases prevLast with
      | none =>
        rw [hlast]
        exact ih hne' hex' _ _ _ _ _
      | some p =>
        rw [hhead, hlast]
        exact ih hne' hex' _ _ _ _ _
    · rw [herr]

/-- C10: nodes whose stop-assignment lacks a cumulative distance stay
reachable, because same-stop transfer edges are added regardless of
distance data; and whenever the reconstructed path yields a segment whose
first or last assignment has distance None, the response loop aborts with
the uncaught TypeError of the unguarded subtraction instead of a trip or
a documented signal. -/
theorem none_distance_crash :
    (∀ (route_stops : List RouteStop) (nearby_pairs : List (ℕ × ℕ × ℚ))
       (rs_a rs_b : RouteStop), rs_a ∈ route_stops → rs_b ∈ route_stops →
       rs_a.stop_id = rs_b.stop_id → rs_a.direction_id ≠ rs_b.direction_id →
       (rs_b.id, (0.6 : ℚ)) ∈ buildGraphFromSnapshot route_stops nearby_pairs rs_a.id) ∧
    (∀ segs : List (List RouteStop), (∀ s ∈ segs, s ≠ []) →
      (∃ s ∈ segs, ∃ rs, (s.head? = some rs ∨ s.getLast? = some rs) ∧
        rs.distance_from_start = none) →
      assembleSegments segs = Except.error RouteError.typeError) := by
  constructor
  · intro route_stops nearby_pairs rs_a rs_b ha hb hstop hneq
    exact same_stop_edge_mem ha hb hstop hneq
  · intro segs hne hex
    exact assembleLoop_crash segs hne hex none 0 0 0 []

/-- Witness for C10: the line-2 assignment without a distance is
reachable from the line-1 assignment at the same stop via the 0.6
transfer edge, and assembling the one-segment path that ends at it
aborts with the TypeError signal. -/
theorem none_distance_crash_witness :
    wRs2 ∈ wSnapshotRs ∧ wRs3 ∈ wSnapshotRs ∧ wRs2.stop_id = wRs3.stop_id ∧
    wRs2.direction_id ≠ wRs3.direction_id ∧
    wRs3.distance_from_start = none ∧
    (wRs3.id, (0.6 : ℚ)) ∈ buildGraphFromSnapshot wSnapshotRs wPairs wRs2.id ∧
    assembleSegments [[wRs3]] = Except.error RouteError.typeError := by
  have h2 : wRs2 ∈ wSnapshotRs := by
    unfold wSnapshotRs
    exact List.mem_cons_of_mem _ (List.mem_cons_self _ _)
  have h3 : wRs3 ∈ wSnapshotRs := by
    unfold wSnapshotRs
    exact List.mem_cons_of_mem _ (List.mem_cons_of_mem _ (List.mem_cons_self _ _))
  refine ⟨h2, h3, rfl, by decide, rfl,
    (none_distance_crash).1 wSnapshotRs wPairs wRs2 wRs3 h2 h3 rfl (by decide),
    (none_distance_crash).2 [[wRs3]] ?_ ?_⟩
  · intro s hs
    rcases List.mem_singleton.mp hs with rfl
    simp
  · exact ⟨[wRs3], List.mem_singleton.mpr rfl, wRs3, Or.inl rfl, rfl⟩
